import Mathlib

/-
Verification development for the mealplan-printables repository.

The program under study is src/mealplan_to_html.py: it converts a weekly
meal-plan Markdown document into a styled HTML page.  This file gives a
shallow embedding of the algorithmic core of that program — text is
modelled as `List Char`, each Python function is translated to a Lean
function of the same name — and proves the stated properties about it.

Modelling conventions:
  - Python `str` values are `List Char`; a Lean string literal `"x"` is
    converted with `.toList` where needed.
  - Python whitespace stripping (`str.strip`) is modelled over the six
    ASCII whitespace characters stripped by Python.
  - `re` regular-expression behaviour is modelled by explicit scanning
    functions whose semantics are characterised by theorems below.
  - Recursive scans that must evaluate inside `decide` are written with
    an explicit fuel argument bounded by the input length; a lemma shows
    the fuel is irrelevant once it dominates the length, and a canonical
    wrapper fixes fuel = length.
  - The source file's delimiter literals in `split_day_and_title` are the
    characters U+00E2 U+20AC U+201C (resp. U+201D) — the bytes of the
    UTF-8 en-dash (resp. em-dash) mis-decoded as cp1252: the embedding
    reproduces these bytes exactly as they stand in the file.
-/

namespace Mealplan

/-- Python `str` is modelled as a list of characters. -/
abbrev Text := List Char

/-- Whitespace characters removed by Python `str.strip()` (ASCII range). -/
def is_space (c : Char) : Bool :=
  c == ' ' || c == '\t' || c == '\n' || c == '\r' || c == '\x0b' || c == '\x0c'

/-- Python `str.strip()`: drop leading and trailing whitespace. -/
def strip (s : Text) : Text :=
  ((s.dropWhile is_space).reverse.dropWhile is_space).reverse

/-- Python `str.startswith(pat)` on lists of characters. -/
def startsWith : Text → Text → Bool
  | [], _ => true
  | _ :: _, [] => false
  | p :: ps, c :: cs => p == c && startsWith ps cs

/-- Python `pat in s` (substring membership). -/
def occursIn (pat : Text) : Text → Bool
  | [] => startsWith pat []
  | c :: cs => startsWith pat (c :: cs) || occursIn pat cs

/-- Python `s.split(pat, 1)`: split around the first occurrence of `pat`.
Returns `none` when `pat` does not occur. -/
def splitFirst (pat : Text) : Text → Option (Text × Text)
  | [] => if startsWith pat [] then some ([], []) else none
  | c :: cs =>
    if startsWith pat (c :: cs) then some ([], (c :: cs).drop pat.length)
    else
      match splitFirst pat cs with
      | some (a, b) => some (c :: a, b)
      | none => none

/-- Python `html.escape` on a single character: `&`, `<`, `>`, `"` and the
apostrophe are replaced by their entities, every other character is kept. -/
def escape_char (c : Char) : Text :=
  if c == '&' then ("&amp;").toList
  else if c == '<' then ("&lt;").toList
  else if c == '>' then ("&gt;").toList
  else if c == '"' then ("&quot;").toList
  else if c == '\'' then ("&#x27;").toList
  else [c]

/-- Python `html.escape(s, quote=True)`.  The sequential replacements of the
library function never rewrite characters produced by an earlier replacement
(`&` is replaced first), so the net effect is this character-wise map. -/
def escape (s : Text) : Text := (s.map escape_char).flatten

/-- Scanner for the lazy group of the regex `\*\*(.+?)\*\*`: given the text
following an opening `**`, find the shortest non-empty newline-free content
followed by a closing `**`.  Returns the content and the text after the
closing delimiter. -/
def scan_close : Text → Option (Text × Text)
  | [] => none
  | c :: cs =>
    if c == '\n' then none
    else if startsWith ['*', '*'] cs then some ([c], cs.drop 2)
    else
      match scan_close cs with
      | some (content, rest) => some (c :: content, rest)
      | none => none

/-- Leftmost match of the regex `\*\*(.+?)\*\*`: returns
(text before the match, group 1, text after the match). -/
def bold_find : Text → Option (Text × Text × Text)
  | [] => none
  | c :: cs =>
    if startsWith ['*', '*'] (c :: cs) then
      match scan_close ((c :: cs).drop 2) with
      | some (content, rest) => some ([], content, rest)
      | none =>
        match bold_find cs with
        | some (p, c1, r) => some (c :: p, c1, r)
        | none => none
    else
      match bold_find cs with
      | some (p, c1, r) => some (c :: p, c1, r)
      | none => none

/-- HTML opening tag inserted by `render_inline`. -/
def strong_open : Text := ("<strong>").toList

/-- HTML closing tag inserted by `render_inline`. -/
def strong_close : Text := ("</strong>").toList

/-- Fuel-bounded worker for `render_inline`: repeatedly take the leftmost
`**…**` match, emit the escaped gap and the emphasis-wrapped escaped group,
and continue after the match; when no match remains, escape the tail. -/
def render_inline_go : Nat → Text → Text
  | 0, s => escape s
  | fuel + 1, s =>
    match bold_find s with
    | none => escape s
    | some (p, c, r) =>
      escape p ++ strong_open ++ escape c ++ strong_close ++ render_inline_go fuel r

/-- Python `render_inline`: escape HTML entities and convert `**bold**`
markers to `<strong>` tags. -/
def render_inline (s : Text) : Text := render_inline_go s.length s

/-- Validity of a `**…**` span decomposition of `s`: non-empty, newline-free
content between two `**` delimiters. -/
def ValidSpan (s p c r : Text) : Prop :=
  s = p ++ '*' :: '*' :: (c ++ '*' :: '*' :: r) ∧ c ≠ [] ∧ '\n' ∉ c

/-- Predicate for a bullet-list line: the stripped line starts with `"- "`. -/
def is_item (l : Text) : Bool := startsWith ['-', ' '] (strip l)

/-- List-item rendering of a `"- "` line: text after the marker, stripped,
through the Inline Renderer. -/
def li_of (l : Text) : Text := render_inline (strip ((strip l).drop 2))

/-- One `<ul>` block from a run of rendered items. -/
def ul_of (items : List Text) : Text :=
  ("<ul>").toList
    ++ (items.map (fun item => ("<li>").toList ++ item ++ ("</li>").toList)).flatten
    ++ ("</ul>").toList

/-- One `<p>` block from a non-blank, non-list line. -/
def p_of (l : Text) : Text := ("<p>").toList ++ render_inline (strip l) ++ ("</p>").toList

/-- Fuel-bounded worker producing the list of HTML block strings of
`convert_lines_to_html`: skip blank lines, group maximal `"- "` runs into one
`<ul>`, make any other line a `<p>`. -/
def html_parts_go : Nat → List Text → List Text
  | 0, _ => []
  | _, [] => []
  | fuel + 1, l :: rest =>
    if (strip l).isEmpty then html_parts_go fuel rest
    else if is_item l then
      ul_of (((l :: rest).takeWhile is_item).map li_of)
        :: html_parts_go fuel ((l :: rest).dropWhile is_item)
    else p_of l :: html_parts_go fuel rest

/-- Block list produced by `convert_lines_to_html` before joining. -/
def html_parts (lines : List Text) : List Text := html_parts_go lines.length lines

/-- Python `convert_lines_to_html`: blocks joined with newlines. -/
def convert_lines_to_html (lines : List Text) : Text :=
  List.intercalate ('\n' :: []) (html_parts lines)

/-- Delimiters tried, in order, by `split_day_and_title`.  The first and
third entries reproduce the exact characters present in the source file:
U+00E2 U+20AC U+201C and U+00E2 U+20AC U+201D, which are the UTF-8 bytes of
the en-dash (resp. em-dash) mis-decoded as cp1252. -/
def DELIMS : List Text :=
  [(" â€“ ").toList,
   (" - ").toList,
   (" â€” ").toList,
   (" -- ").toList]

/-- First delimiter of the list that occurs in the text, split on its first
occurrence. -/
def try_delims : List Text → Text → Option (Text × Text)
  | [], _ => none
  | d :: ds, raw => if occursIn d raw then splitFirst d raw else try_delims ds raw

/-- Python `split_day_and_title`: split a heading into day label and meal
title on the first delimiter that occurs; both halves stripped.  With no
delimiter, the day label is empty and the title is the stripped heading. -/
def split_day_and_title (raw_title : Text) : Text × Text :=
  match try_delims DELIMS raw_title with
  | some (day, meal) => (strip day, strip meal)
  | none => ([], strip raw_title)

/-- Python `str.splitlines()` worker (line boundaries `\n`, `\r\n`, `\r`). -/
def splitlines_go (acc : Text) : Text → List Text
  | [] => [acc.reverse]
  | '\n' :: cs =>
    acc.reverse :: (match cs with | [] => [] | _ :: _ => splitlines_go [] cs)
  | '\r' :: '\n' :: cs =>
    acc.reverse :: (match cs with | [] => [] | _ :: _ => splitlines_go [] cs)
  | '\r' :: cs =>
    acc.reverse :: (match cs with | [] => [] | _ :: _ => splitlines_go [] cs)
  | c :: cs => splitlines_go (c :: acc) cs

/-- Python `str.splitlines()`: empty text has no lines; a trailing line
terminator does not produce a final empty line. -/
def splitlines : Text → List Text
  | [] => []
  | c :: cs => splitlines_go [] (c :: cs)

/-- One parsed section: heading text after `"## "`, and its body lines. -/
structure MealSection where
  raw_title : Text
  lines : List Text
deriving DecidableEq, Repr

/-- Line whose stripped form begins with `"# "`. -/
def is_h1 (l : Text) : Bool := startsWith ['#', ' '] (strip l)

/-- Line whose stripped form begins with `"## "`. -/
def is_h2 (l : Text) : Bool := startsWith ['#', '#', ' '] (strip l)

/-- Horizontal-rule marker: stripped line equal to `"---"`. -/
def hr_line (l : Text) : Bool := strip l == ('-' :: '-' :: '-' :: [])

/-- Title text of a `"# "` line: remainder after the marker, stripped. -/
def h1_title (l : Text) : Text := strip ((strip l).drop 2)

/-- Title text of a `"## "` line: remainder after the marker, stripped. -/
def h2_title (l : Text) : Text := strip ((strip l).drop 3)

/-- Loop of Python `parse_weekly_plan`, with the loop state (document title,
intro lines, closed sections, currently open section) made explicit. -/
def parse_lines (title : Text) (intro_lines : List Text) (sections : List MealSection)
    (current : Option MealSection) : List Text → Text × List Text × List MealSection
  | [] => (title, intro_lines, sections ++ current.toList)
  | raw_line :: rest =>
    if is_h1 raw_line then
      parse_lines (if title.isEmpty then h1_title raw_line else title)
        intro_lines sections current rest
    else if is_h2 raw_line then
      parse_lines title intro_lines (sections ++ current.toList)
        (some ⟨h2_title raw_line, []⟩) rest
    else if hr_line raw_line then
      parse_lines title intro_lines sections current rest
    else
      match current with
      | none => parse_lines title (intro_lines ++ [raw_line]) sections current rest
      | some sec =>
        parse_lines title intro_lines sections
          (some ⟨sec.raw_title, sec.lines ++ [raw_line]⟩) rest

/-- Python `parse_weekly_plan`: extract title, intro lines and sections. -/
def parse_weekly_plan (markdown_text : Text) : Text × List Text × List MealSection :=
  parse_lines [] [] [] none (splitlines markdown_text)

/-- Word character of the regex `\b` boundary (ASCII `\w`). -/
def is_word_char (c : Char) : Bool := c.isAlphanum || c == '_'

/-- Word boundary after a match: end of text or a non-word character. -/
def word_end_ok : Text → Bool
  | [] => true
  | c :: _ => !is_word_char c

/-- Case-insensitive whole-word check for one weekday name at the front of
`s` (the name is stored lowercase). -/
def day_check (name : Text) (s : Text) : Bool :=
  startsWith name (s.map Char.toLower) && word_end_ok (s.drop name.length)

/-- The `DAY_NAME_TO_ISO` table of the source: weekday names with their ISO
numbers, in the alternation order of `DAY_NAME_PATTERN`. -/
def DAY_NAMES : List (Text × Nat) :=
  [(("monday").toList, 1), (("tuesday").toList, 2), (("wednesday").toList, 3),
   (("thursday").toList, 4), (("friday").toList, 5), (("saturday").toList, 6),
   (("sunday").toList, 7)]

/-- Match of `DAY_NAME_PATTERN` anchored at the current position (the
boundary before the position is checked by the caller), trying the weekday
names in the alternation order of the pattern. -/
def day_at (s : Text) : Option Nat :=
  if day_check (("monday").toList) s then some 1
  else if day_check (("tuesday").toList) s then some 2
  else if day_check (("wednesday").toList) s then some 3
  else if day_check (("thursday").toList) s then some 4
  else if day_check (("friday").toList) s then some 5
  else if day_check (("saturday").toList) s then some 6
  else if day_check (("sunday").toList) s then some 7
  else none

/-- Left-to-right scan of `DAY_NAME_PATTERN.search`, carrying whether the
previous character was a word character (for the `\b` before the match). -/
def extract_weekday_go (prev_word : Bool) : Text → Option Nat
  | [] => none
  | c :: cs =>
    if prev_word then extract_weekday_go (is_word_char c) cs
    else
      match day_at (c :: cs) with
      | some k => some k
      | none => extract_weekday_go (is_word_char c) cs

/-- Python `extract_weekday`: ISO weekday number of the first whole-word,
case-insensitive weekday name in the label, if any. -/
def extract_weekday (day_label : Text) : Option Nat :=
  extract_weekday_go false day_label

/-- Gregorian leap-year test (as in Python `datetime`). -/
def is_leap (year : Nat) : Bool :=
  year % 4 == 0 && (year % 100 != 0 || year % 400 == 0)

/-- Days before January 1 of `year` in the proleptic Gregorian calendar
(Python `datetime._days_before_year`). -/
def days_before_year (year : Nat) : Nat :=
  (year - 1) * 365 + (year - 1) / 4 - (year - 1) / 100 + (year - 1) / 400

/-- Calendar date triple (proleptic Gregorian). -/
structure YMD where
  year : Nat
  month : Nat
  day : Nat
deriving DecidableEq, Repr

/-- Python `datetime._DAYS_IN_MONTH` (index 0 unused). -/
def DAYS_IN_MONTH : List Nat := [0, 31, 28, 31, 30, 31, 30, 31, 31, 30, 31, 30, 31]

/-- Python `datetime._DAYS_BEFORE_MONTH` (index 0 unused). -/
def DAYS_BEFORE_MONTH : List Nat :=
  [0, 0, 31, 59, 90, 120, 151, 181, 212, 243, 273, 304, 334]

/-- Modelled from the spec and the Python standard library: ordinal (day 1 =
0001-01-01) to calendar date, following `datetime._ord2ymd`. -/
def ord2ymd (ordinal : Nat) : YMD :=
  let n0 := ordinal - 1
  let n400 := n0 / 146097
  let n1 := n0 % 146097
  let n100 := n1 / 36524
  let n2 := n1 % 36524
  let n4 := n2 / 1461
  let n3 := n2 % 1461
  let nY := n3 / 365
  let n := n3 % 365
  let year := n400 * 400 + 1 + n100 * 100 + n4 * 4 + nY
  if nY == 4 || n100 == 4 then ⟨year - 1, 12, 31⟩
  else
    let leapyear := nY == 3 && (n4 != 24 || n100 == 3)
    let month := (n + 50) / 32
    let preceding := DAYS_BEFORE_MONTH.getD month 0 + (if month > 2 && leapyear then 1 else 0)
    if preceding > n then
      let month1 := month - 1
      let preceding1 := preceding - (DAYS_IN_MONTH.getD month1 0 + (if month1 == 2 && leapyear then 1 else 0))
      ⟨year, month1, n - preceding1 + 1⟩
    else ⟨year, month, n - preceding + 1⟩

/-- Modelled from the spec and the Python standard library: ordinal of the
Monday starting ISO week 1 of `year` (`datetime._isoweek1monday`). -/
def isoweek1monday (year : Nat) : Nat :=
  let firstday := days_before_year year + 1
  let firstweekday := (firstday + 6) % 7
  let week1monday := firstday - firstweekday
  if firstweekday > 3 then week1monday + 7 else week1monday

/-- Year with 53 ISO weeks: January 1 falls on Thursday, or on Wednesday in
a leap year (the week-53 admissibility test of `date.fromisocalendar`). -/
def iso_long_year (year : Nat) : Bool :=
  let first_weekday := (days_before_year year + 1) % 7
  first_weekday == 4 || (first_weekday == 3 && is_leap year)

/-- Modelled from the spec and the Python standard library:
`date.fromisocalendar(year, week, day)` — ISO week date to calendar date,
failing for out-of-range years, weeks (including week 53 of a 52-week
year) and weekdays. -/
def fromisocalendar (year week day : Nat) : Except String YMD :=
  if year < 1 || year > 9999 then .error ("Year is out of range")
  else if week < 1 || week > 53 || (week == 53 && !iso_long_year year) then
    .error ("Invalid week")
  else if day < 1 || day > 7 then .error ("Invalid weekday")
  else .ok (ord2ymd (isoweek1monday year + (week - 1) * 7 + (day - 1)))

/-- Worker for the ISO date map of `main`: one entry per weekday, aborting
on the first failure exactly as the raising dict comprehension does. -/
def build_iso_go (year week : Nat) : List Nat → Except String (List (Nat × YMD))
  | [] => .ok []
  | d :: ds =>
    match fromisocalendar year week d with
    | .error e => .error e
    | .ok dt =>
      match build_iso_go year week ds with
      | .error e => .error e
      | .ok rest => .ok ((d, dt) :: rest)

/-- The `iso_dates` mapping built in `main`: dates for weekdays 1..7 of the
given ISO week, or the error aborting the conversion. -/
def build_iso_dates (year week : Nat) : Except String (List (Nat × YMD)) :=
  build_iso_go year week [1, 2, 3, 4, 5, 6, 7]

/-- Month abbreviations of `strftime("%b")` in the C locale. -/
def MONTH_ABBREV : List Text :=
  [("Jan").toList, ("Feb").toList, ("Mar").toList, ("Apr").toList,
   ("May").toList, ("Jun").toList, ("Jul").toList, ("Aug").toList,
   ("Sep").toList, ("Oct").toList, ("Nov").toList, ("Dec").toList]

/-- Python `format_display_date`: a date like `"Feb 25, 2026"`. -/
def format_display_date (value : YMD) : Text :=
  MONTH_ABBREV.getD (value.month - 1) [] ++ (' ' :: [])
    ++ (Nat.repr value.day).toList ++ (',' :: ' ' :: [])
    ++ (Nat.repr value.year).toList

/-- The `weekday_number` variable of `build_html_document`: the Weekday
Resolver is consulted only for a non-empty day label. -/
def weekday_number (day_label : Text) : Option Nat :=
  if day_label.isEmpty then none else extract_weekday day_label

/-- The `meal_date` variable of `build_html_document`: Python truthiness of
`iso_dates and weekday_number` — an absent or empty map, or an absent or
zero weekday, yields no date; otherwise `iso_dates.get(weekday_number)`. -/
def meal_date (iso_dates : Option (List (Nat × YMD))) (wn : Option Nat) : Option YMD :=
  match iso_dates, wn with
  | some m, some n => if !m.isEmpty && !(n == 0) then m.lookup n else none
  | _, _ => none

/-- The `date_html` fragment of a card: the formatted, escaped date span, or
nothing. -/
def date_html (iso_dates : Option (List (Nat × YMD))) (wn : Option Nat) : Text :=
  match meal_date iso_dates wn with
  | some d =>
    ("<span class=\"meal-date\">").toList ++ escape (format_display_date d)
      ++ ("</span>").toList
  | none => []

/-- The `day_name_html` fragment of a card: the escaped day label span, or
nothing. -/
def day_name_html (day_label : Text) : Text :=
  if day_label.isEmpty then []
  else ("<span class=\"day-name\">").toList ++ escape day_label ++ ("</span>").toList

/-- The `day_html` fragment of a card: the day/date line, present exactly
when the day label is non-empty. -/
def day_html (iso_dates : Option (List (Nat × YMD))) (day_label : Text) : Text :=
  if day_label.isEmpty then []
  else
    ("<p class=\"meal-day\">").toList ++ day_name_html day_label
      ++ date_html iso_dates (weekday_number day_label) ++ ("</p>").toList

/-- Literal card template before the day line. -/
def CARD_A : Text :=
  ("\n            <section class=\"meal-card\">\n                ").toList

/-- Literal card template between the day line and the heading. -/
def CARD_B : Text := ("\n                <h2>").toList

/-- Literal card template between the heading and the body. -/
def CARD_C : Text :=
  ("</h2>\n                <div class=\"meal-body\">\n                    ").toList

/-- Literal card template after the body. -/
def CARD_D : Text :=
  ("\n                </div>\n            </section>\n            ").toList

/-- One meal card of `build_html_document`: day/date line, escaped meal
title, converted body. -/
def render_card (iso_dates : Option (List (Nat × YMD))) (sec : MealSection) : Text :=
  CARD_A ++ day_html iso_dates (split_day_and_title sec.raw_title).1 ++ CARD_B
    ++ escape (split_day_and_title sec.raw_title).2 ++ CARD_C
    ++ convert_lines_to_html sec.lines ++ CARD_D

/-- The `cards_html` list of `build_html_document`, in section order. -/
def build_cards (md : Text) (iso_dates : Option (List (Nat × YMD))) : List Text :=
  ((parse_weekly_plan md).2.2).map (render_card iso_dates)

/-- The `page_title` of `build_html_document`: parsed title or the default. -/
def page_title (md : Text) : Text :=
  if (parse_weekly_plan md).1.isEmpty then ("Weekly Meal Plan").toList
  else (parse_weekly_plan md).1

/-- The `intro_html` of `build_html_document`. -/
def intro_html (md : Text) : Text :=
  if (parse_weekly_plan md).2.1.isEmpty then []
  else convert_lines_to_html (parse_weekly_plan md).2.1

/-- The `intro_section` of `build_html_document`. -/
def intro_section (md : Text) : Text :=
  if (intro_html md).isEmpty then []
  else ("<div class=\"intro\">").toList ++ intro_html md ++ ("</div>").toList

/-- The `cards_markup` of `build_html_document`: cards joined by newlines. -/
def cards_markup (md : Text) (iso_dates : Option (List (Nat × YMD))) : Text :=
  List.intercalate ('\n' :: []) (build_cards md iso_dates)

/-- Literal HTML template of `build_html_document`: document prefix up to the page title in head. -/
def TPL_A : Text := ("<!DOCTYPE html>\n<html lang=\"en\">\n<head>\n    <meta charset=\"UTF-8\" />\n    <meta name=\"viewport\" content=\"width=device-width, initial-scale=1.0\" />\n    <title>").toList

/-- Literal HTML template of `build_html_document`: between the two page-title uses (style block included). -/
def TPL_B : Text := ("</title>\n    <style>\n        :root \x7b\n            color-scheme: light;\n            --page-bg: #f8fafc;\n            --page-gradient: linear-gradient(135deg, #f8fafc 0%, #f1f5f9 50%, #e2e8f0 100%);\n            --card-bg: #ffffff;\n            --card-border: #e2e8f0;\n            --text-primary: #0f172a;\n            --text-muted: #475569;\n            --accent: #ec7c30;\n            --accent-soft: #ffe6cf;\n        \x7d\n\n        * \x7b\n            box-sizing: border-box;\n        \x7d\n\n        body \x7b\n            margin: 0;\n            font-family: \"Inter\", \"Segoe UI\", -apple-system, BlinkMacSystemFont, \"Helvetica Neue\", sans-serif;\n            background: var(--page-gradient);\n            min-height: 100vh;\n            color: var(--text-primary);\n            padding: 2.5rem 1.5rem 4rem;\n        \x7d\n\n        .page \x7b\n            max-width: 1100px;\n            margin: 0 auto;\n        \x7d\n\n        header \x7b\n            text-align: center;\n            margin-bottom: 2.5rem;\n        \x7d\n\n        header h1 \x7b\n            margin: 0;\n            font-size: clamp(2rem, 5vw, 3.5rem);\n        \x7d\n\n        header .intro \x7b\n            margin-top: 0.75rem;\n            font-size: 1rem;\n            color: var(--text-muted);\n            max-width: 640px;\n            margin-left: auto;\n            margin-right: auto;\n        \x7d\n\n        main \x7b\n            display: grid;\n            gap: 1.5rem;\n            grid-template-columns: repeat(auto-fit, minmax(270px, 1fr));\n        \x7d\n\n        .meal-card \x7b\n            background: var(--card-bg);\n            border-radius: 1.25rem;\n            padding: 1.5rem;\n            border: 1px solid var(--card-border);\n            box-shadow: 0 10px 20px rgba(15, 23, 42, 0.08);\n        \x7d\n\n        .meal-day \x7b\n            display: inline-flex;\n            align-items: baseline;\n            gap: 0.4rem;\n            flex-wrap: wrap;\n            margin: 0 0 0.35rem;\n        \x7d\n\n        .meal-day .day-name \x7b\n            text-transform: uppercase;\n            font-size: 0.8rem;\n            letter-spacing: 0.08em;\n            font-weight: 600;\n            color: var(--accent);\n        \x7d\n\n        .meal-day .meal-date \x7b\n            font-size: 0.75rem;\n            color: var(--text-muted);\n            letter-spacing: normal;\n            text-transform: none;\n            font-weight: 500;\n            display: inline-flex;\n            align-items: baseline;\n            gap: 0.15rem;\n        \x7d\n\n        .meal-day .meal-date::before \x7b\n            content: \"\u00E2\u20AC\u00A2\";\n            color: var(--card-border);\n        \x7d\n\n        .meal-card h2 \x7b\n            margin: 0 0 1rem;\n            font-size: 1.35rem;\n            color: var(--text-primary);\n        \x7d\n\n        .meal-body p \x7b\n            margin: 0.35rem 0;\n            color: var(--text-muted);\n            line-height: 1.5;\n        \x7d\n\n        .meal-body ul \x7b\n            list-style: disc;\n            padding-left: 1.2rem;\n            margin: 0.35rem 0 0.8rem;\n            color: var(--text-muted);\n        \x7d\n\n        .meal-body li \x7b\n            margin: 0.2rem 0;\n        \x7d\n\n        .meal-body strong \x7b\n            background: var(--accent-soft);\n            color: var(--text-primary);\n            padding: 0.1rem 0.35rem;\n            border-radius: 0.35rem;\n        \x7d\n\n        @media print \x7b\n            @page \x7b\n                margin: 0.5in;\n            \x7d\n            body \x7b\n                background: #ffffff;\n                padding: 0;\n                color: #000;\n            \x7d\n            main \x7b\n                display: grid;\n                grid-template-columns: repeat(2, minmax(0, 1fr));\n                gap: 0.5in;\n            \x7d\n            .meal-card \x7b\n                box-shadow: none;\n                page-break-inside: avoid;\n                break-inside: avoid;\n                margin: 0;\n            \x7d\n        \x7d\n    </style>\n</head>\n<body>\n    <div class=\"page\">\n        <header>\n            <h1>").toList

/-- Literal HTML template of `build_html_document`: between the visible heading and the intro section. -/
def TPL_C : Text := ("</h1>\n            ").toList

/-- Literal HTML template of `build_html_document`: between the intro section and the cards markup. -/
def TPL_D : Text := ("\n        </header>\n        <main>\n            ").toList

/-- Literal HTML template of `build_html_document`: document suffix after the cards markup. -/
def TPL_E : Text := ("\n        </main>\n    </div>\n</body>\n</html>\n").toList


/-- Python `build_html_document`: the full HTML document string. -/
def build_html_document (md : Text) (iso_dates : Option (List (Nat × YMD))) : Text :=
  TPL_A ++ escape (page_title md) ++ TPL_B ++ escape (page_title md) ++ TPL_C
    ++ intro_section md ++ TPL_D ++ cards_markup md iso_dates ++ TPL_E

/-- Specification-side predicate: lines kept in intro or section bodies
(neither a `"# "` line nor a horizontal rule). -/
def keep_line (l : Text) : Bool := !is_h1 l && !hr_line l

/-- Specification-side reading of rule 1 of the Document Parser: the title
is the remainder of the first `"# "` line. -/
def title_spec : List Text → Text
  | [] => []
  | l :: ls => if is_h1 l then h1_title l else title_spec ls

/-- Specification-side intro lines: kept lines before the first `"## "`
heading. -/
def intro_spec (ls : List Text) : List Text :=
  (ls.takeWhile (fun x => !is_h2 x)).filter keep_line

/-- Fuel-bounded specification-side section list: one section per `"## "`
line, holding the kept lines up to the next `"## "` line. -/
def sections_spec_go : Nat → List Text → List MealSection
  | 0, _ => []
  | _, [] => []
  | fuel + 1, l :: ls =>
    if is_h2 l then
      ⟨h2_title l, (ls.takeWhile (fun x => !is_h2 x)).filter keep_line⟩
        :: sections_spec_go fuel (ls.dropWhile (fun x => !is_h2 x))
    else sections_spec_go fuel ls

/-- Specification-side section list (fuel fixed to the line count). -/
def sections_spec (ls : List Text) : List MealSection := sections_spec_go ls.length ls

/-- Sections produced from `ls` when a section with title `rt` and already
accumulated lines `acc` is currently open. -/
def sections_cont (rt : Text) (acc : List Text) (ls : List Text) : List MealSection :=
  ⟨rt, acc ++ (ls.takeWhile (fun x => !is_h2 x)).filter keep_line⟩
    :: sections_spec (ls.dropWhile (fun x => !is_h2 x))

/-- Final document title after processing `ls` starting from title `t`. -/
def final_title (t : Text) (ls : List Text) : Text :=
  if t.isEmpty then title_spec ls else t

/-- Fuel-bounded section list read off claim C9 as stated: only horizontal
rules are excluded from the body lines. -/
def sections_claim9_go : Nat → List Text → List MealSection
  | 0, _ => []
  | _, [] => []
  | fuel + 1, l :: ls =>
    if is_h2 l then
      ⟨h2_title l, (ls.takeWhile (fun x => !is_h2 x)).filter (fun x => !hr_line x)⟩
        :: sections_claim9_go fuel (ls.dropWhile (fun x => !is_h2 x))
    else sections_claim9_go fuel ls

/-- Claim C9 section list (fuel fixed to the line count). -/
def sections_claim9 (ls : List Text) : List MealSection :=
  sections_claim9_go ls.length ls

/-- Entity tails that may follow a `&` in safely escaped output. -/
def ENT_TAILS : List Text :=
  [("amp;").toList, ("lt;").toList, ("gt;").toList, ("quot;").toList, ("#x27;").toList]

/-- Every ampersand in the text begins one of the five entities. -/
def amp_ok (t : Text) : Prop :=
  ∀ u v, t = u ++ '&' :: v → ∃ tl ∈ ENT_TAILS, startsWith tl v = true

/-- Every `<` in the text opens one of the two inserted emphasis tags. -/
def lt_ok (t : Text) : Prop :=
  ∀ u v, t = u ++ '<' :: v →
    startsWith (("strong>").toList) v = true ∨ startsWith (("/strong>").toList) v = true

/-- Python-style `str.endswith` on lists of characters. -/
def endsWith (pat s : Text) : Bool := startsWith pat.reverse s.reverse

/-- Every `>` in the text closes one of the two inserted emphasis tags. -/
def gt_ok (t : Text) : Prop :=
  ∀ u v, t = u ++ '>' :: v →
    endsWith (("<strong").toList) u = true ∨ endsWith (("</strong").toList) u = true

/-- The characters rewritten by the Inline Renderer. -/
def special_chars : Text := ['&', '<', '>', '"', '\'', '*']

/-- Word-boundary condition before a match that starts right after `pre`
(`prevW` tells whether the character before the scanned text is a word
character). -/
def bound_before_ok (prevW : Bool) (pre : Text) : Prop :=
  match pre.getLast? with
  | none => prevW = false
  | some c => is_word_char c = false

/-- Word-boundary condition after a match followed by `post`. -/
def bound_after_ok (post : Text) : Prop :=
  match post.head? with
  | none => True
  | some c => is_word_char c = false

/-- Occurrence of the weekday with ISO number `k` as a case-insensitive
whole word right after the prefix `pre` of `s`, in a scan whose previous
character is described by `prevW`. -/
def OccAtP (prevW : Bool) (s pre : Text) (k : Nat) : Prop :=
  ∃ name w post, (name, k) ∈ DAY_NAMES ∧ s = pre ++ w ++ post ∧
    w.map Char.toLower = name ∧ bound_before_ok prevW pre ∧ bound_after_ok post

/-- Whole-word weekday occurrence in a full label (nothing precedes it). -/
def OccAt (s pre : Text) (k : Nat) : Prop := OccAtP false s pre k

deriving instance DecidableEq for Except

/-- Validity of an ISO (year, week) pair for `date.fromisocalendar`: year in
range and week between 1 and the number of ISO weeks of the year. -/
def iso_valid (y w : Nat) : Prop :=
  1 ≤ y ∧ y ≤ 9999 ∧ 1 ≤ w ∧ (w ≤ 52 ∨ (w = 53 ∧ iso_long_year y = true))

/-- Fully populated ISO date map: an entry for every weekday 1..7. -/
def full_map (m : List (Nat × YMD)) : Prop :=
  ∀ d, d < 8 → 1 ≤ d → (m.lookup d).isSome

/-- Characterisation of `startsWith` as prefix decomposition. -/
theorem startsWith_iff {p s : Text} : startsWith p s = true ↔ ∃ t, s = p ++ t := by
  induction p generalizing s with
  | nil => simp [startsWith]
  | cons a ps ih =>
    cases s with
    | nil =>
      simp only [startsWith, List.cons_append]
      constructor
      · intro h; cases h
      · rintro ⟨t, ht⟩; cases ht
    | cons c cs =>
      simp only [startsWith, Bool.and_eq_true, beq_iff_eq, ih, List.cons_append]
      constructor
      · rintro ⟨rfl, t, rfl⟩; exact ⟨t, rfl⟩
      · rintro ⟨t, ht⟩
        injection ht with h1 h2
        exact ⟨h1.symm, t, h2⟩

theorem scan_close_some {t content rest : Text}
    (h : scan_close t = some (content, rest)) :
    t = content ++ '*' :: '*' :: rest ∧ content ≠ [] ∧ '\n' ∉ content := by
  induction t generalizing content rest with
  | nil => simp [scan_close] at h
  | cons c cs ih =>
    rw [scan_close] at h
    by_cases hn : (c == '\n') = true
    · rw [if_pos hn] at h; cases h
    · rw [if_neg hn] at h
      have hcn : ¬ c = '\n' := by simpa using hn
      by_cases hs : startsWith ['*', '*'] cs = true
      · rw [if_pos hs] at h
        simp only [Option.some.injEq, Prod.mk.injEq] at h
        obtain ⟨rfl, rfl⟩ := h
        obtain ⟨u, hu⟩ := startsWith_iff.mp hs
        subst hu
        refine ⟨by simp, by simp, ?_⟩
        simp only [List.mem_singleton]
        exact fun hh => hcn hh.symm
      · rw [if_neg hs] at h
        cases hrec : scan_close cs with
        | none => rw [hrec] at h; cases h
        | some pr =>
          obtain ⟨c1, r1⟩ := pr
          rw [hrec] at h
          simp only [Option.some.injEq, Prod.mk.injEq] at h
          obtain ⟨rfl, rfl⟩ := h
          obtain ⟨he, hne, hnl⟩ := ih hrec
          refine ⟨by simp [he], by simp, ?_⟩
          simp only [List.mem_cons, not_or]
          exact ⟨fun hh => hcn hh.symm, hnl⟩

theorem scan_close_none {t : Text} (h : scan_close t = none) :
    ¬ ∃ content rest, t = content ++ '*' :: '*' :: rest ∧ content ≠ [] ∧ '\n' ∉ content := by
  induction t with
  | nil =>
    rintro ⟨content, rest, he, hne, -⟩
    cases content with
    | nil => cases he
    | cons a as => cases he
  | cons c cs ih =>
    rw [scan_close] at h
    rintro ⟨content, rest, he, hne, hnl⟩
    cases content with
    | nil => exact hne rfl
    | cons a as =>
      injection he with h1 h2
      subst h1
      by_cases hn : (c == '\n') = true
      · exact hnl (by simp [show c = '\n' by simpa using hn])
      · rw [if_neg hn] at h
        by_cases hs : startsWith ['*', '*'] cs = true
        · rw [if_pos hs] at h; cases h
        · rw [if_neg hs] at h
          cases hrec : scan_close cs with
          | some pr => obtain ⟨c1, r1⟩ := pr; rw [hrec] at h; cases h
          | none =>
            cases as with
            | nil =>
              subst h2
              exact hs (startsWith_iff.mpr ⟨rest, rfl⟩)
            | cons b bs =>
              exact ih hrec ⟨b :: bs, rest, h2, by simp,
                fun hm => hnl (List.mem_cons_of_mem _ hm)⟩

theorem scan_close_min {t content rest : Text}
    (h : scan_close t = some (content, rest)) :
    ∀ c' r', t = c' ++ '*' :: '*' :: r' → c' ≠ [] → '\n' ∉ c' →
      content.length ≤ c'.length := by
  induction t generalizing content rest with
  | nil => cases h
  | cons c cs ih =>
    intro c' r' he hne hnl
    rw [scan_close] at h
    cases c' with
    | nil => exact absurd rfl hne
    | cons a as =>
      injection he with h1 h2
      subst h1
      by_cases hn : (c == '\n') = true
      · rw [if_pos hn] at h; cases h
      · rw [if_neg hn] at h
        by_cases hs : startsWith ['*', '*'] cs = true
        · rw [if_pos hs] at h
          simp only [Option.some.injEq, Prod.mk.injEq] at h
          obtain ⟨rfl, rfl⟩ := h
          simp
        · rw [if_neg hs] at h
          cases hrec : scan_close cs with
          | none => rw [hrec] at h; cases h
          | some pr =>
            obtain ⟨c1, r1⟩ := pr
            rw [hrec] at h
            simp only [Option.some.injEq, Prod.mk.injEq] at h
            obtain ⟨rfl, rfl⟩ := h
            cases as with
            | nil =>
              subst h2
              exact absurd (startsWith_iff.mpr ⟨r', rfl⟩) hs
            | cons b bs =>
              have := ih hrec (b :: bs) r' h2 (by simp)
                (fun hm => hnl (List.mem_cons_of_mem _ hm))
              simpa using Nat.succ_le_succ this

theorem bold_find_some {s p c r : Text} (h : bold_find s = some (p, c, r)) :
    s = p ++ '*' :: '*' :: (c ++ '*' :: '*' :: r) ∧ c ≠ [] ∧ '\n' ∉ c := by
  induction s generalizing p c r with
  | nil => cases h
  | cons a as ih =>
    rw [bold_find] at h
    by_cases hs : startsWith ['*', '*'] (a :: as) = true
    · rw [if_pos hs] at h
      obtain ⟨u, hu⟩ := startsWith_iff.mp hs
      cases hsc : scan_close ((a :: as).drop 2) with
      | some pr =>
        obtain ⟨c1, r1⟩ := pr
        rw [hsc] at h
        simp only [Option.some.injEq, Prod.mk.injEq] at h
        obtain ⟨rfl, rfl, rfl⟩ := h
        obtain ⟨he, hne, hnl⟩ := scan_close_some hsc
        have hdrop : (a :: as).drop 2 = u := by rw [hu]; rfl
        rw [hdrop] at he
        refine ⟨?_, hne, hnl⟩
        rw [hu, ← he]
        rfl
      | none =>
        rw [hsc] at h
        cases hrec : bold_find as with
        | none => rw [hrec] at h; cases h
        | some pr =>
          obtain ⟨p1, c1, r1⟩ := pr
          rw [hrec] at h
          simp only [Option.some.injEq, Prod.mk.injEq] at h
          obtain ⟨rfl, rfl, rfl⟩ := h
          obtain ⟨he, hne, hnl⟩ := ih hrec
          exact ⟨by rw [List.cons_append, ← he], hne, hnl⟩
    · rw [if_neg hs] at h
      cases hrec : bold_find as with
      | none => rw [hrec] at h; cases h
      | some pr =>
        obtain ⟨p1, c1, r1⟩ := pr
        rw [hrec] at h
        simp only [Option.some.injEq, Prod.mk.injEq] at h
        obtain ⟨rfl, rfl, rfl⟩ := h
        obtain ⟨he, hne, hnl⟩ := ih hrec
        exact ⟨by rw [List.cons_append, ← he], hne, hnl⟩

theorem bold_find_none {s : Text} (h : bold_find s = none) :
    ¬ ∃ p c r, ValidSpan s p c r := by
  induction s with
  | nil =>
    rintro ⟨p, c, r, he, hne, -⟩
    cases p with
    | nil => cases he
    | cons a as => cases he
  | cons a as ih =>
    rw [bold_find] at h
    rintro ⟨p, c, r, he, hne, hnl⟩
    by_cases hs : startsWith ['*', '*'] (a :: as) = true
    · rw [if_pos hs] at h
      cases hsc : scan_close ((a :: as).drop 2) with
      | some pr => obtain ⟨c1, r1⟩ := pr; rw [hsc] at h; cases h
      | none =>
        rw [hsc] at h
        obtain ⟨u, hu⟩ := startsWith_iff.mp hs
        have hdrop : (a :: as).drop 2 = u := by rw [hu]; rfl
        cases p with
        | nil =>
          simp only [List.nil_append] at he
          have : u = c ++ '*' :: '*' :: r := by
            have hh := hu.symm.trans he
            simp only [List.cons_append, List.nil_append, List.cons.injEq, true_and] at hh
            exact hh
          exact scan_close_none (hdrop ▸ hsc) ⟨c, r, this, hne, hnl⟩
        | cons b bs =>
          injection he with h1 h2
          cases hrec : bold_find as with
          | none => exact ih hrec ⟨bs, c, r, h2, hne, hnl⟩
          | some pr => obtain ⟨p1, c1, r1⟩ := pr; rw [hrec] at h; cases h
    · rw [if_neg hs] at h
      cases p with
      | nil =>
        refine hs (startsWith_iff.mpr ⟨c ++ '*' :: '*' :: r, ?_⟩)
        simpa using he
      | cons b bs =>
        injection he with h1 h2
        cases hrec : bold_find as with
        | none => exact ih hrec ⟨bs, c, r, h2, hne, hnl⟩
        | some pr => obtain ⟨p1, c1, r1⟩ := pr; rw [hrec] at h; cases h

theorem bold_find_min {s p c r : Text} (h : bold_find s = some (p, c, r)) :
    ∀ p' c' r', ValidSpan s p' c' r' →
      p.length < p'.length ∨ (p.length = p'.length ∧ c.length ≤ c'.length) := by
  induction s generalizing p c r with
  | nil => cases h
  | cons a as ih =>
    rintro p' c' r' ⟨he, hne, hnl⟩
    rw [bold_find] at h
    by_cases hs : startsWith ['*', '*'] (a :: as) = true
    · rw [if_pos hs] at h
      obtain ⟨u, hu⟩ := startsWith_iff.mp hs
      have hdrop : (a :: as).drop 2 = u := by rw [hu]; rfl
      cases hsc : scan_close ((a :: as).drop 2) with
      | some pr =>
        obtain ⟨c1, r1⟩ := pr
        rw [hsc] at h
        simp only [Option.some.injEq, Prod.mk.injEq] at h
        obtain ⟨rfl, rfl, rfl⟩ := h
        cases p' with
        | nil =>
          refine Or.inr ⟨rfl, ?_⟩
          simp only [List.nil_append] at he
          have hu2 : u = c' ++ '*' :: '*' :: r' := by
            have hh := hu.symm.trans he
            simp only [List.cons_append, List.nil_append, List.cons.injEq, true_and] at hh
            exact hh
          exact scan_close_min (hdrop ▸ hsc) c' r' hu2 hne hnl
        | cons b bs => exact Or.inl (by simp)
      | none =>
        rw [hsc] at h
        cases hrec : bold_find as with
        | none => rw [hrec] at h; cases h
        | some pr =>
          obtain ⟨p1, c1, r1⟩ := pr
          rw [hrec] at h
          simp only [Option.some.injEq, Prod.mk.injEq] at h
          obtain ⟨rfl, rfl, rfl⟩ := h
          cases p' with
          | nil =>
            exfalso
            simp only [List.nil_append] at he
            have hu2 : u = c' ++ '*' :: '*' :: r' := by
              have hh := hu.symm.trans he
              simp only [List.cons_append, List.nil_append, List.cons.injEq, true_and] at hh
              exact hh
            exact scan_close_none (hdrop ▸ hsc) ⟨c', r', hu2, hne, hnl⟩
          | cons b bs =>
            injection he with h1 h2
            rcases ih hrec bs c' r' ⟨h2, hne, hnl⟩ with hlt | ⟨heq, hle⟩
            · exact Or.inl (by simpa using Nat.succ_lt_succ hlt)
            · exact Or.inr ⟨by simpa using heq, hle⟩
    · rw [if_neg hs] at h
      cases hrec : bold_find as with
      | none => rw [hrec] at h; cases h
      | some pr =>
        obtain ⟨p1, c1, r1⟩ := pr
        rw [hrec] at h
        simp only [Option.some.injEq, Prod.mk.injEq] at h
        obtain ⟨rfl, rfl, rfl⟩ := h
        cases p' with
        | nil =>
          exfalso
          exact hs (startsWith_iff.mpr ⟨c' ++ '*' :: '*' :: r', by simpa using he⟩)
        | cons b bs =>
          injection he with h1 h2
          rcases ih hrec bs c' r' ⟨h2, hne, hnl⟩ with hlt | ⟨heq, hle⟩
          · exact Or.inl (by simpa using Nat.succ_lt_succ hlt)
          · exact Or.inr ⟨by simpa using heq, hle⟩

theorem bold_find_length {s p c r : Text} (h : bold_find s = some (p, c, r)) :
    r.length + 5 ≤ s.length := by
  obtain ⟨he, hne, -⟩ := bold_find_some h
  have : 1 ≤ c.length := by
    cases c with
    | nil => exact absurd rfl hne
    | cons x xs => simp
  subst he
  simp only [List.length_append, List.length_cons]
  omega

theorem render_inline_go_congr :
    ∀ fuel fuel' (s : Text), s.length ≤ fuel → s.length ≤ fuel' →
      render_inline_go fuel s = render_inline_go fuel' s := by
  intro fuel
  induction fuel with
  | zero =>
    intro fuel' s h h'
    have : s = [] := by cases s with
      | nil => rfl
      | cons a as => simp at h
    subst this
    cases fuel' with
    | zero => rfl
    | succ f => simp [render_inline_go, bold_find]
  | succ f ihf =>
    intro fuel' s h h'
    cases fuel' with
    | zero =>
      have : s = [] := by cases s with
        | nil => rfl
        | cons a as => simp at h'
      subst this
      simp [render_inline_go, bold_find]
    | succ f' =>
      rw [render_inline_go, render_inline_go]
      cases hb : bold_find s with
      | none => rfl
      | some pr =>
        obtain ⟨p, c, r⟩ := pr
        have hlen := bold_find_length hb
        have h1 : r.length ≤ f := by omega
        have h2 : r.length ≤ f' := by omega
        simp only [ihf f' r h1 h2]

theorem render_inline_go_of_none {s : Text} (hb : bold_find s = none) :
    ∀ fuel, render_inline_go fuel s = escape s := by
  intro fuel
  cases fuel with
  | zero => rfl
  | succ f => simp [render_inline_go, hb]

theorem render_inline_go_of_some {s p c r : Text} (hb : bold_find s = some (p, c, r)) :
    ∀ fuel, render_inline_go (fuel + 1) s =
      escape p ++ strong_open ++ escape c ++ strong_close ++ render_inline_go fuel r := by
  intro fuel
  simp [render_inline_go, hb]

/-- Unfolding equation for `render_inline` in terms of the leftmost match. -/
theorem render_inline_eq (s : Text) :
    render_inline s =
      match bold_find s with
      | none => escape s
      | some (p, c, r) =>
        escape p ++ strong_open ++ escape c ++ strong_close ++ render_inline r := by
  cases hb : bold_find s with
  | none => rw [render_inline, render_inline_go_of_none hb]
  | some pr =>
    obtain ⟨p, c, r⟩ := pr
    have hlen := bold_find_length hb
    obtain ⟨n, hn⟩ : ∃ n, s.length = n + 1 := ⟨s.length - 1, by omega⟩
    simp only [render_inline, hn, hb, render_inline_go_of_some hb n]
    rw [render_inline_go_congr n r.length r (by omega) (Nat.le_refl _)]

theorem head?_dropWhile_not (p : Char → Bool) :
    ∀ (l : Text) (a : Char), (l.dropWhile p).head? = some a → p a = false := by
  intro l
  induction l with
  | nil => intro a h; cases h
  | cons x xs ih =>
    intro a h
    rw [List.dropWhile_cons] at h
    by_cases hp : p x = true
    · rw [if_pos hp] at h; exact ih a h
    · rw [if_neg hp] at h
      injection h with h1
      subst h1
      cases hpe : p x
      · rfl
      · exact absurd hpe hp

theorem all_dropWhile_iff (p : Char → Bool) (l : Text) :
    (∀ c ∈ l.dropWhile p, p c = true) ↔ (∀ c ∈ l, p c = true) := by
  constructor
  · intro h c hc
    rw [← List.takeWhile_append_dropWhile p l] at hc
    rcases List.mem_append.mp hc with h1 | h2
    · exact List.mem_takeWhile_imp h1
    · exact h c h2
  · intro h c hc
    exact h c (List.Sublist.subset (List.dropWhile_sublist _) hc)

theorem strip_eq_nil_iff {s : Text} : strip s = [] ↔ ∀ c ∈ s, is_space c = true := by
  rw [strip, List.reverse_eq_nil_iff, List.dropWhile_eq_nil_iff]
  constructor
  · intro h c hc
    refine (all_dropWhile_iff is_space s).mp ?_ c hc
    intro x hx
    exact h x (List.mem_reverse.mpr hx)
  · intro h c hc
    exact h c (List.Sublist.subset (List.dropWhile_sublist _) (List.mem_reverse.mp hc))

theorem strip_getLast {s : Text} {c : Char} (h : (strip s).getLast? = some c) :
    is_space c = false := by
  rw [strip, List.getLast?_reverse] at h
  exact head?_dropWhile_not _ _ _ h

theorem h1_title_ne {l : Text} (h : is_h1 l = true) : (h1_title l).isEmpty = false := by
  rw [is_h1] at h
  obtain ⟨t, ht⟩ := startsWith_iff.mp h
  rw [h1_title, ht]
  show (strip (List.drop 2 ('#' :: ' ' :: t))).isEmpty = false
  cases htn : t with
  | nil =>
    exfalso
    rw [htn] at ht
    have h2 := strip_getLast (s := l) (c := ' ') (by rw [ht]; rfl)
    simp [is_space] at h2
  | cons x xs =>
    have hlast : (strip l).getLast? = (x :: xs).getLast? := by
      rw [ht, htn]
      show (('#' : Char) :: ' ' :: x :: xs).getLast? = (x :: xs).getLast?
      rw [List.getLast?_cons_cons, List.getLast?_cons_cons]
    obtain ⟨cl, hcl⟩ : ∃ cl, (x :: xs).getLast? = some cl :=
      ⟨_, List.getLast?_eq_getLast (x :: xs) (by simp)⟩
    have hcs : is_space cl = false := strip_getLast (hlast.trans hcl)
    have hmem : cl ∈ x :: xs := List.mem_of_mem_getLast? hcl
    show (strip (x :: xs)).isEmpty = false
    cases hst : strip (x :: xs) with
    | nil =>
      exfalso
      have := strip_eq_nil_iff.mp hst cl hmem
      rw [this] at hcs
      cases hcs
    | cons y ys => rfl

theorem h1_not_h2 {l : Text} (h : is_h1 l = true) : is_h2 l = false := by
  rw [is_h1] at h
  obtain ⟨t, ht⟩ := startsWith_iff.mp h
  rw [is_h2, ht]
  simp [startsWith]

theorem h2_not_h1 {l : Text} (h : is_h2 l = true) : is_h1 l = false := by
  rw [is_h2] at h
  obtain ⟨t, ht⟩ := startsWith_iff.mp h
  rw [is_h1, ht]
  simp [startsWith]

theorem hr_not_h1 {l : Text} (h : hr_line l = true) : is_h1 l = false := by
  rw [hr_line] at h
  have he : strip l = ('-' :: '-' :: '-' :: []) := eq_of_beq h
  rw [is_h1, he]
  simp [startsWith]

theorem hr_not_h2 {l : Text} (h : hr_line l = true) : is_h2 l = false := by
  rw [hr_line] at h
  have he : strip l = ('-' :: '-' :: '-' :: []) := eq_of_beq h
  rw [is_h2, he]
  simp [startsWith]

theorem sections_spec_go_congr :
    ∀ f f' (ls : List Text), ls.length ≤ f → ls.length ≤ f' →
      sections_spec_go f ls = sections_spec_go f' ls := by
  intro f
  induction f with
  | zero =>
    intro f' ls h h'
    have : ls = [] := by cases ls with
      | nil => rfl
      | cons a as => simp at h
    subst this
    cases f' <;> rfl
  | succ f ih =>
    intro f' ls h h'
    cases ls with
    | nil => cases f' <;> rfl
    | cons l ls1 =>
      cases f' with
      | zero => simp at h'
      | succ f1 =>
        simp only [sections_spec_go]
        by_cases hh : is_h2 l = true
        · rw [if_pos hh, if_pos hh]
          have hd : (ls1.dropWhile (fun x => !is_h2 x)).length ≤ ls1.length :=
            List.Sublist.length_le (List.dropWhile_sublist _)
          rw [ih f1 _ (by simp at h; omega) (by simp at h'; omega)]
        · rw [if_neg hh, if_neg hh]
          rw [ih f1 ls1 (by simp at h; omega) (by simp at h'; omega)]

theorem sections_spec_cons (l : Text) (ls : List Text) :
    sections_spec (l :: ls) =
      if is_h2 l then
        ⟨h2_title l, (ls.takeWhile (fun x => !is_h2 x)).filter keep_line⟩
          :: sections_spec (ls.dropWhile (fun x => !is_h2 x))
      else sections_spec ls := by
  rw [sections_spec]
  simp only [List.length_cons, sections_spec_go]
  by_cases hh : is_h2 l = true
  · rw [if_pos hh, if_pos hh]
    rw [sections_spec]
    rw [sections_spec_go_congr ls.length (ls.dropWhile (fun x => !is_h2 x)).length _
      (List.Sublist.length_le (List.dropWhile_sublist _)) (Nat.le_refl _)]
  · rw [if_neg hh, if_neg hh, sections_spec]

theorem sections_claim9_go_congr :
    ∀ f f' (ls : List Text), ls.length ≤ f → ls.length ≤ f' →
      sections_claim9_go f ls = sections_claim9_go f' ls := by
  intro f
  induction f with
  | zero =>
    intro f' ls h h'
    have : ls = [] := by cases ls with
      | nil => rfl
      | cons a as => simp at h
    subst this
    cases f' <;> rfl
  | succ f ih =>
    intro f' ls h h'
    cases ls with
    | nil => cases f' <;> rfl
    | cons l ls1 =>
      cases f' with
      | zero => simp at h'
      | succ f1 =>
        simp only [sections_claim9_go]
        by_cases hh : is_h2 l = true
        · rw [if_pos hh, if_pos hh]
          rw [ih f1 _ (by
            have : (ls1.dropWhile (fun x => !is_h2 x)).length ≤ ls1.length :=
              List.Sublist.length_le (List.dropWhile_sublist _)
            simp at h; omega) (by
            have : (ls1.dropWhile (fun x => !is_h2 x)).length ≤ ls1.length :=
              List.Sublist.length_le (List.dropWhile_sublist _)
            simp at h'; omega)]
        · rw [if_neg hh, if_neg hh]
          rw [ih f1 ls1 (by simp at h; omega) (by simp at h'; omega)]

theorem html_parts_go_congr :
    ∀ f f' (ls : List Text), ls.length ≤ f → ls.length ≤ f' →
      html_parts_go f ls = html_parts_go f' ls := by
  intro f
  induction f with
  | zero =>
    intro f' ls h h'
    have : ls = [] := by cases ls with
      | nil => rfl
      | cons a as => simp at h
    subst this
    cases f' <;> rfl
  | succ f ih =>
    intro f' ls h h'
    cases ls with
    | nil => cases f' <;> rfl
    | cons l ls1 =>
      cases f' with
      | zero => simp at h'
      | succ f1 =>
        simp only [html_parts_go]
        by_cases hb : (strip l).isEmpty = true
        · rw [if_pos hb, if_pos hb]
          rw [ih f1 ls1 (by simp at h; omega) (by simp at h'; omega)]
        · rw [if_neg hb, if_neg hb]
          by_cases hi : is_item l = true
          · rw [if_pos hi, if_pos hi]
            have hd : ((l :: ls1).dropWhile is_item).length ≤ ls1.length := by
              rw [List.dropWhile_cons, if_pos hi]
              exact List.Sublist.length_le (List.dropWhile_sublist _)
            rw [ih f1 _ (by simp at h; omega) (by simp at h'; omega)]
          · rw [if_neg hi, if_neg hi]
            rw [ih f1 ls1 (by simp at h; omega) (by simp at h'; omega)]

theorem html_parts_cons (l : Text) (ls : List Text) :
    html_parts (l :: ls) =
      if (strip l).isEmpty then html_parts ls
      else if is_item l then
        ul_of (((l :: ls).takeWhile is_item).map li_of)
          :: html_parts ((l :: ls).dropWhile is_item)
      else p_of l :: html_parts ls := by
  rw [html_parts]
  simp only [List.length_cons, html_parts_go]
  by_cases hb : (strip l).isEmpty = true
  · rw [if_pos hb, if_pos hb, html_parts]
  · rw [if_neg hb, if_neg hb]
    by_cases hi : is_item l = true
    · rw [if_pos hi, if_pos hi, html_parts]
      have hd : ((l :: ls).dropWhile is_item).length ≤ ls.length := by
        rw [List.dropWhile_cons, if_pos hi]
        exact List.Sublist.length_le (List.dropWhile_sublist _)
      rw [html_parts_go_congr ls.length ((l :: ls).dropWhile is_item).length _ hd (Nat.le_refl _)]
    · rw [if_neg hi, if_neg hi, html_parts]

theorem parse_lines_cons (t : Text) (i : List Text) (s : List MealSection)
    (cur : Option MealSection) (l : Text) (rest : List Text) :
    parse_lines t i s cur (l :: rest) =
      if is_h1 l then
        parse_lines (if t.isEmpty then h1_title l else t) i s cur rest
      else if is_h2 l then
        parse_lines t i (s ++ cur.toList) (some ⟨h2_title l, []⟩) rest
      else if hr_line l then parse_lines t i s cur rest
      else
        match cur with
        | none => parse_lines t (i ++ [l]) s cur rest
        | some sec =>
          parse_lines t i s (some ⟨sec.raw_title, sec.lines ++ [l]⟩) rest := by
  rw [parse_lines.eq_def]

theorem bnot_true {b : Bool} (h : ¬ b = true) : b = false := by
  cases b with
  | false => rfl
  | true => exact absurd rfl h

theorem final_title_nil (t : Text) : final_title t [] = t := by
  cases t with
  | nil => simp [final_title, title_spec]
  | cons a as => simp [final_title]

/-- Characterisation of the Document Parser loop: the final state is the
spec-side title, intro and section lists, for every starting state. -/
theorem parse_lines_spec :
    ∀ (ls : List Text) (t : Text) (i : List Text) (s : List MealSection)
      (cur : Option MealSection),
      parse_lines t i s cur ls =
        (final_title t ls,
         i ++ (match cur with | none => intro_spec ls | some _ => []),
         s ++ (match cur with
               | none => sections_spec ls
               | some sec => sections_cont sec.raw_title sec.lines ls)) := by
  intro ls
  induction ls with
  | nil =>
    intro t i s cur
    cases cur with
    | none =>
      simp [parse_lines, final_title_nil, intro_spec, sections_spec, sections_spec_go]
    | some sec =>
      simp [parse_lines, final_title_nil, sections_cont, sections_spec, sections_spec_go]
  | cons l ls ih =>
    intro t i s cur
    rw [parse_lines_cons]
    by_cases hh1 : is_h1 l = true
    · rw [if_pos hh1, ih]
      have ht1 : final_title (if t.isEmpty then h1_title l else t) ls
          = final_title t (l :: ls) := by
        by_cases hte : t.isEmpty = true
        · rw [if_pos hte]
          rw [final_title, if_neg (by rw [h1_title_ne hh1]; simp)]
          rw [final_title, if_pos hte]
          simp only [title_spec]
          rw [if_pos hh1]
        · rw [if_neg hte, final_title, if_neg hte, final_title, if_neg hte]
      have hi1 : intro_spec (l :: ls) = intro_spec ls := by
        simp [intro_spec, List.takeWhile_cons, h1_not_h2 hh1, List.filter_cons,
          keep_line, hh1]
      have hs1 : sections_spec (l :: ls) = sections_spec ls := by
        rw [sections_spec_cons, if_neg (by rw [h1_not_h2 hh1]; simp)]
      cases cur with
      | none => exact Prod.ext ht1 (Prod.ext (by simp only [hi1]) (by simp only [hs1]))
      | some sec =>
        have hs2 : sections_cont sec.raw_title sec.lines (l :: ls)
            = sections_cont sec.raw_title sec.lines ls := by
          simp [sections_cont, List.takeWhile_cons, List.dropWhile_cons,
            h1_not_h2 hh1, List.filter_cons, keep_line, hh1]
        exact Prod.ext ht1 (Prod.ext (by simp) (by simp only [hs2]))
    · rw [if_neg hh1]
      have hh1f : is_h1 l = false := bnot_true hh1
      by_cases hh2 : is_h2 l = true
      · rw [if_pos hh2, ih]
        have ht1 : final_title t ls = final_title t (l :: ls) := by
          simp [final_title, title_spec, hh1f]
        have hsc : sections_spec (l :: ls) = sections_cont (h2_title l) [] ls := by
          rw [sections_spec_cons, if_pos hh2, sections_cont]
          simp
        cases cur with
        | none =>
          have hi1 : intro_spec (l :: ls) = [] := by
            simp [intro_spec, List.takeWhile_cons, hh2]
          exact Prod.ext ht1 (Prod.ext (by simp [hi1]) (by simp [hsc]))
        | some sec =>
          have hs2 : sections_cont sec.raw_title sec.lines (l :: ls)
              = sec :: sections_cont (h2_title l) [] ls := by
            rw [sections_cont, ← hsc]
            simp [List.takeWhile_cons, List.dropWhile_cons, hh2]
          exact Prod.ext ht1 (Prod.ext (by simp) (by simp [hs2]))
      · rw [if_neg hh2]
        have hh2f : is_h2 l = false := bnot_true hh2
        by_cases hhr : hr_line l = true
        · rw [if_pos hhr, ih]
          have ht1 : final_title t ls = final_title t (l :: ls) := by
            simp [final_title, title_spec, hh1f]
          have hi1 : intro_spec (l :: ls) = intro_spec ls := by
            simp [intro_spec, List.takeWhile_cons, hh2f, List.filter_cons,
              keep_line, hhr]
          have hs1 : sections_spec (l :: ls) = sections_spec ls := by
            rw [sections_spec_cons, if_neg (by rw [hh2f]; simp)]
          cases cur with
          | none => exact Prod.ext ht1 (Prod.ext (by simp only [hi1]) (by simp only [hs1]))
          | some sec =>
            have hs2 : sections_cont sec.raw_title sec.lines (l :: ls)
                = sections_cont sec.raw_title sec.lines ls := by
              simp [sections_cont, List.takeWhile_cons, List.dropWhile_cons,
                hh2f, List.filter_cons, keep_line, hhr]
            exact Prod.ext ht1 (Prod.ext (by simp) (by simp only [hs2]))
        · rw [if_neg hhr]
          have hhrf : hr_line l = false := bnot_true hhr
          have ht1 : final_title t ls = final_title t (l :: ls) := by
            simp [final_title, title_spec, hh1f]
          have hkeep : keep_line l = true := by
            simp [keep_line, hh1f, hhrf]
          cases cur with
          | none =>
            simp only [ih]
            have hi1 : intro_spec (l :: ls) = l :: intro_spec ls := by
              simp [intro_spec, List.takeWhile_cons, hh2f, List.filter_cons, hkeep]
            have hs1 : sections_spec (l :: ls) = sections_spec ls := by
              rw [sections_spec_cons, if_neg (by rw [hh2f]; simp)]
            exact Prod.ext ht1 (Prod.ext (by simp [hi1]) (by simp only [hs1]))
          | some sec =>
            simp only [ih]
            have hs2 : sections_cont sec.raw_title sec.lines (l :: ls)
                = sections_cont sec.raw_title (sec.lines ++ [l]) ls := by
              rw [sections_cont, sections_cont]
              simp [List.takeWhile_cons, List.dropWhile_cons, hh2f,
                List.filter_cons, hkeep]
            exact Prod.ext ht1 (Prod.ext (by simp) (by simp only [hs2]))

/-- Parsed form of a whole document in spec-side terms. -/
theorem parse_weekly_plan_spec (md : Text) :
    parse_weekly_plan md =
      (title_spec (splitlines md), intro_spec (splitlines md),
       sections_spec (splitlines md)) := by
  rw [parse_weekly_plan, parse_lines_spec]
  simp [final_title]

theorem takeWhile_filter_h1 :
    ∀ ls : List Text,
      ((ls.filter (fun x => !is_h1 x)).takeWhile (fun x => !is_h2 x)).filter keep_line
        = (ls.takeWhile (fun x => !is_h2 x)).filter keep_line := by
  intro ls
  induction ls with
  | nil => rfl
  | cons l ls ih =>
    by_cases hh1 : is_h1 l = true
    · have hq : (!is_h2 l) = true := by rw [h1_not_h2 hh1]; rfl
      have hk : keep_line l = false := by simp [keep_line, hh1]
      rw [List.filter_cons, if_neg (by simp [hh1])]
      rw [List.takeWhile_cons, if_pos hq, List.filter_cons, if_neg (by simp [hk])]
      exact ih
    · have hh1f : is_h1 l = false := bnot_true hh1
      rw [List.filter_cons, if_pos (by simp [hh1f])]
      by_cases hh2 : is_h2 l = true
      · rw [List.takeWhile_cons, if_neg (by simp [hh2])]
        rw [List.takeWhile_cons, if_neg (by simp [hh2])]
      · have hq : (!is_h2 l) = true := by rw [bnot_true hh2]; rfl
        rw [List.takeWhile_cons, if_pos hq, List.takeWhile_cons, if_pos hq]
        rw [List.filter_cons, List.filter_cons]
        by_cases hk : keep_line l = true
        · rw [if_pos hk, if_pos hk, ih]
        · rw [if_neg hk, if_neg hk, ih]

theorem dropWhile_filter_h1 :
    ∀ ls : List Text,
      (ls.filter (fun x => !is_h1 x)).dropWhile (fun x => !is_h2 x)
        = (ls.dropWhile (fun x => !is_h2 x)).filter (fun x => !is_h1 x) := by
  intro ls
  induction ls with
  | nil => rfl
  | cons l ls ih =>
    by_cases hh1 : is_h1 l = true
    · have hq : (!is_h2 l) = true := by rw [h1_not_h2 hh1]; rfl
      rw [List.filter_cons, if_neg (by simp [hh1])]
      rw [List.dropWhile_cons, if_pos hq]
      exact ih
    · have hh1f : is_h1 l = false := bnot_true hh1
      rw [List.filter_cons, if_pos (by simp [hh1f])]
      by_cases hh2 : is_h2 l = true
      · rw [List.dropWhile_cons, if_neg (by simp [hh2])]
        rw [List.dropWhile_cons, if_neg (by simp [hh2])]
        rw [List.filter_cons, if_pos (by simp [hh1f])]
      · have hq : (!is_h2 l) = true := by rw [bnot_true hh2]; rfl
        rw [List.dropWhile_cons, if_pos hq, List.dropWhile_cons, if_pos hq]
        exact ih

theorem sections_spec_filter_bounded :
    ∀ n (ls : List Text), ls.length ≤ n →
      sections_spec (ls.filter (fun x => !is_h1 x)) = sections_spec ls := by
  intro n
  induction n with
  | zero =>
    intro ls h
    have : ls = [] := by cases ls with
      | nil => rfl
      | cons a as => simp at h
    subst this
    rfl
  | succ n ih =>
    intro ls h
    cases ls with
    | nil => rfl
    | cons l ls1 =>
      simp only [List.length_cons] at h
      by_cases hh1 : is_h1 l = true
      · rw [List.filter_cons, if_neg (by simp [hh1])]
        rw [ih ls1 (by omega)]
        rw [sections_spec_cons, if_neg (by rw [h1_not_h2 hh1]; simp)]
      · have hh1f : is_h1 l = false := bnot_true hh1
        rw [List.filter_cons, if_pos (by simp [hh1f])]
        rw [sections_spec_cons, sections_spec_cons]
        by_cases hh2 : is_h2 l = true
        · rw [if_pos hh2, if_pos hh2]
          rw [takeWhile_filter_h1, dropWhile_filter_h1]
          rw [ih ((ls1.dropWhile (fun x => !is_h2 x))) (by
            have := List.Sublist.length_le (List.dropWhile_sublist
              (l := ls1) (fun x => !is_h2 x))
            omega)]
        · rw [if_neg hh2, if_neg hh2]
          exact ih ls1 (by omega)

theorem title_spec_append :
    ∀ (pre : List Text) (l : Text) (post : List Text),
      (∀ x ∈ pre, is_h1 x = false) → is_h1 l = true →
      title_spec (pre ++ l :: post) = h1_title l := by
  intro pre
  induction pre with
  | nil =>
    intro l post _ hl
    simp only [List.nil_append, title_spec]
    rw [if_pos hl]
  | cons x xs ih =>
    intro l post hpre hl
    simp only [List.cons_append, title_spec]
    rw [if_neg (by rw [hpre x (by simp)]; simp)]
    exact ih l post (fun y hy => hpre y (by simp [hy])) hl

theorem filter_dropWhile_h2 :
    ∀ ls : List Text,
      ((ls.dropWhile (fun x => !is_h2 x)).filter is_h2) = ls.filter is_h2 := by
  intro ls
  induction ls with
  | nil => rfl
  | cons l ls ih =>
    by_cases hh2 : is_h2 l = true
    · rw [List.dropWhile_cons, if_neg (by simp [hh2])]
    · rw [List.dropWhile_cons, if_pos (by rw [bnot_true hh2]; rfl)]
      rw [ih, List.filter_cons, if_neg (by simp [bnot_true hh2])]

theorem sections_spec_titles_bounded :
    ∀ n (ls : List Text), ls.length ≤ n →
      (sections_spec ls).map (fun sec => sec.raw_title)
        = (ls.filter is_h2).map h2_title := by
  intro n
  induction n with
  | zero =>
    intro ls h
    have : ls = [] := by cases ls with
      | nil => rfl
      | cons a as => simp at h
    subst this
    rfl
  | succ n ih =>
    intro ls h
    cases ls with
    | nil => rfl
    | cons l ls1 =>
      simp only [List.length_cons] at h
      rw [sections_spec_cons]
      by_cases hh2 : is_h2 l = true
      · rw [if_pos hh2, List.filter_cons, if_pos hh2]
        simp only [List.map_cons]
        rw [← filter_dropWhile_h2 ls1]
        rw [ih ((ls1.dropWhile (fun x => !is_h2 x))) (by
          have := List.Sublist.length_le (List.dropWhile_sublist
            (l := ls1) (fun x => !is_h2 x))
          omega)]
      · rw [if_neg hh2, List.filter_cons, if_neg (by simp [bnot_true hh2])]
        exact ih ls1 (by omega)

/-- C3: for every input document, only the first line whose trimmed form
begins with `"# "` sets the document title (to its remainder, trimmed);
every subsequent `"# "` line is consumed without affecting the title, the
intro lines or any section's lines — intro and sections equal those parsed
from the document with all `"# "` lines removed. -/
theorem c3_first_title_only (md : Text) :
    ((parse_weekly_plan md).1 = title_spec (splitlines md)) ∧
    (∀ pre l post, splitlines md = pre ++ l :: post →
      (∀ x ∈ pre, is_h1 x = false) → is_h1 l = true →
      (parse_weekly_plan md).1 = h1_title l) ∧
    (parse_weekly_plan md).2.1
      = intro_spec ((splitlines md).filter (fun x => !is_h1 x)) ∧
    (parse_weekly_plan md).2.2
      = sections_spec ((splitlines md).filter (fun x => !is_h1 x)) := by
  refine ⟨?_, ?_, ?_, ?_⟩
  · rw [parse_weekly_plan_spec]
  · intro pre l post he hpre hl
    rw [parse_weekly_plan_spec]
    show title_spec (splitlines md) = h1_title l
    rw [he]
    exact title_spec_append pre l post hpre hl
  · rw [parse_weekly_plan_spec]
    show intro_spec (splitlines md) = _
    rw [intro_spec, intro_spec, takeWhile_filter_h1]
  · rw [parse_weekly_plan_spec]
    show sections_spec (splitlines md) = _
    exact (sections_spec_filter_bounded (splitlines md).length _
      (by
        have := List.length_filter_le (fun x => !is_h1 x) (splitlines md)
        omega)).symm

/-- C3 (witness): in a document with two `"# "` lines of different content,
the title is the remainder of the first one. -/
theorem c3_witness :
    (parse_weekly_plan
        (("Intro\n# First Title\nmore\n# Second Title\n## Day - Meal\nbody").toList)).1
      = ("First Title").toList := by
  have h := (c3_first_title_only
      (("Intro\n# First Title\nmore\n# Second Title\n## Day - Meal\nbody").toList)).2.1
    (("Intro").toList :: []) (("# First Title").toList)
    ((("more").toList) :: (("# Second Title").toList)
      :: (("## Day - Meal").toList) :: (("body").toList) :: [])
    (by decide) (by decide) (by decide)
  rw [h]
  decide

/-- C9 (counterexample): a `"# "` line between a section heading and the
next heading is excluded from the section's lines, so the claim that only
horizontal-rule markers are excluded fails on the document
`"## D\n# t2\nx"`: the parser keeps only `"x"`, while the claim demands
both `"# t2"` and `"x"`. -/
theorem c9_counterexample :
    (parse_weekly_plan (("## D\n# t2\nx").toList)).2.2
      ≠ sections_claim9 (splitlines (("## D\n# t2\nx").toList)) := by
  decide

/-- C9 (amended): sections appear in input order, one per `"## "` line, and
each section's `lines` contains exactly every raw line (verbatim,
untrimmed) between its heading and the next heading or end of input,
excluding horizontal-rule markers and lines whose trimmed form begins with
`"# "`. -/
theorem c9_section_lines (md : Text) :
    (parse_weekly_plan md).2.2 = sections_spec (splitlines md) := by
  rw [parse_weekly_plan_spec]

/-- C1: the HTML document assembled by `build_html_document` carries one
meal card per line whose trimmed form begins with `"## "`: the card list
has exactly that length, is the image of the parsed sections in order, the
section titles are the heading remainders in input order, and the document
is the template with the newline-joined cards spliced in. -/
theorem c1_cards_count_and_order (md : Text) (iso : Option (List (Nat × YMD))) :
    (build_cards md iso).length = ((splitlines md).filter is_h2).length ∧
    build_cards md iso = ((parse_weekly_plan md).2.2).map (render_card iso) ∧
    ((parse_weekly_plan md).2.2).map (fun sec => sec.raw_title)
      = ((splitlines md).filter is_h2).map h2_title ∧
    build_html_document md iso =
      TPL_A ++ escape (page_title md) ++ TPL_B ++ escape (page_title md) ++ TPL_C
        ++ intro_section md ++ TPL_D
        ++ List.intercalate ('\n' :: []) (build_cards md iso) ++ TPL_E := by
  have hmap : ((parse_weekly_plan md).2.2).map (fun sec => sec.raw_title)
      = ((splitlines md).filter is_h2).map h2_title := by
    rw [parse_weekly_plan_spec]
    exact sections_spec_titles_bounded (splitlines md).length _ (Nat.le_refl _)
  refine ⟨?_, rfl, hmap, rfl⟩
  have h1 := congrArg List.length hmap
  simp only [List.length_map] at h1
  rw [build_cards, List.length_map]
  exact h1

theorem takeWhile_all_eq {p : Text → Bool} :
    ∀ {a : List Text}, (∀ x ∈ a, p x = true) → a.takeWhile p = a := by
  intro a
  induction a with
  | nil => intro _; rfl
  | cons x xs ih =>
    intro h
    rw [List.takeWhile_cons, if_pos (h x (by simp))]
    rw [ih (fun y hy => h y (by simp [hy]))]

theorem takeWhile_append_all {p : Text → Bool} :
    ∀ (a z : List Text), (∀ x ∈ a, p x = true) →
      (a ++ z).takeWhile p = a ++ z.takeWhile p := by
  intro a
  induction a with
  | nil => intro z _; rfl
  | cons x xs ih =>
    intro z h
    rw [List.cons_append, List.takeWhile_cons, if_pos (h x (by simp))]
    rw [ih z (fun y hy => h y (by simp [hy]))]
    rfl

theorem dropWhile_append_all {p : Text → Bool} :
    ∀ (a z : List Text), (∀ x ∈ a, p x = true) →
      (a ++ z).dropWhile p = z.dropWhile p := by
  intro a
  induction a with
  | nil => intro z _; rfl
  | cons x xs ih =>
    intro z h
    rw [List.cons_append, List.dropWhile_cons, if_pos (h x (by simp))]
    exact ih z (fun y hy => h y (by simp [hy]))

theorem takeWhile_append_not {p : Text → Bool} :
    ∀ (a z : List Text), ¬ (∀ x ∈ a, p x = true) →
      (a ++ z).takeWhile p = a.takeWhile p := by
  intro a
  induction a with
  | nil => intro z h; exact absurd (by intro x hx; cases hx) h
  | cons x xs ih =>
    intro z h
    rw [List.cons_append, List.takeWhile_cons, List.takeWhile_cons]
    by_cases hx : p x = true
    · rw [if_pos hx, if_pos hx]
      rw [ih z (fun hall => h (by
        intro y hy
        rcases List.mem_cons.mp hy with rfl | hy2
        · exact hx
        · exact hall y hy2))]
    · rw [if_neg hx, if_neg hx]

theorem dropWhile_append_not {p : Text → Bool} :
    ∀ (a z : List Text), ¬ (∀ x ∈ a, p x = true) →
      (a ++ z).dropWhile p = a.dropWhile p ++ z := by
  intro a
  induction a with
  | nil => intro z h; exact absurd (by intro x hx; cases hx) h
  | cons x xs ih =>
    intro z h
    rw [List.cons_append, List.dropWhile_cons, List.dropWhile_cons]
    by_cases hx : p x = true
    · rw [if_pos hx, if_pos hx]
      exact ih z (fun hall => h (by
        intro y hy
        rcases List.mem_cons.mp hy with rfl | hy2
        · exact hx
        · exact hall y hy2))
    · rw [if_neg hx, if_neg hx]
      rfl

theorem blank_not_item {bl : Text} (hbl : strip bl = []) : is_item bl = false := by
  rw [is_item, hbl]
  rfl

theorem blank_isEmpty {bl : Text} (hbl : strip bl = []) : (strip bl).isEmpty = true := by
  rw [hbl]
  rfl

theorem html_parts_blank_split_bounded :
    ∀ n (xs ys : List Text) (bl : Text), xs.length ≤ n → strip bl = [] →
      html_parts (xs ++ bl :: ys) = html_parts xs ++ html_parts ys := by
  intro n
  induction n with
  | zero =>
    intro xs ys bl h hbl
    have : xs = [] := by cases xs with
      | nil => rfl
      | cons a as => simp at h
    subst this
    rw [List.nil_append, html_parts_cons, if_pos (blank_isEmpty hbl)]
    rfl
  | succ n ih =>
    intro xs ys bl h hbl
    cases xs with
    | nil =>
      rw [List.nil_append, html_parts_cons, if_pos (blank_isEmpty hbl)]
      rfl
    | cons l xs1 =>
      simp only [List.length_cons] at h
      rw [List.cons_append, html_parts_cons, html_parts_cons]
      by_cases hb : (strip l).isEmpty = true
      · rw [if_pos hb, if_pos hb]
        exact ih xs1 ys bl (by omega) hbl
      · rw [if_neg hb, if_neg hb]
        by_cases hit : is_item l = true
        · rw [if_pos hit, if_pos hit]
          by_cases hall : ∀ x ∈ l :: xs1, is_item x = true
          · have htw : ((l :: xs1) ++ bl :: ys).takeWhile is_item
                = (l :: xs1) ++ (bl :: ys).takeWhile is_item :=
              takeWhile_append_all _ _ hall
            have htw2 : (bl :: ys).takeWhile is_item = [] := by
              rw [List.takeWhile_cons, if_neg (by rw [blank_not_item hbl]; simp)]
            have hdw : ((l :: xs1) ++ bl :: ys).dropWhile is_item
                = (bl :: ys).dropWhile is_item :=
              dropWhile_append_all _ _ hall
            have hdw2 : (bl :: ys).dropWhile is_item = bl :: ys := by
              rw [List.dropWhile_cons, if_neg (by rw [blank_not_item hbl]; simp)]
            have hdw3 : (l :: xs1).dropWhile is_item = [] :=
              List.dropWhile_eq_nil_iff.mpr hall
            rw [show (l :: xs1) ++ bl :: ys = l :: (xs1 ++ bl :: ys) from rfl] at htw hdw
            rw [htw, htw2, hdw, hdw2, List.append_nil, takeWhile_all_eq hall, hdw3]
            rw [html_parts_cons, if_pos (blank_isEmpty hbl)]
            show _ :: html_parts ys = (_ :: html_parts []) ++ html_parts ys
            rw [show html_parts ([] : List Text) = [] from rfl]
            rfl
          · have htw : ((l :: xs1) ++ bl :: ys).takeWhile is_item
                = (l :: xs1).takeWhile is_item :=
              takeWhile_append_not _ _ hall
            have hdw : ((l :: xs1) ++ bl :: ys).dropWhile is_item
                = (l :: xs1).dropWhile is_item ++ bl :: ys :=
              dropWhile_append_not _ _ hall
            have hlen : ((l :: xs1).dropWhile is_item).length ≤ xs1.length := by
              rw [List.dropWhile_cons, if_pos hit]
              exact List.Sublist.length_le (List.dropWhile_sublist _)
            rw [show (l :: xs1) ++ bl :: ys = l :: (xs1 ++ bl :: ys) from rfl] at htw hdw
            rw [htw, hdw, ih _ ys bl (by omega) hbl]
            rfl
        · rw [if_neg hit, if_neg hit]
          rw [ih xs1 ys bl (by omega) hbl]
          rfl

/-- C2 (counterexample): a blank line does terminate a list early — two
`"- "` runs separated by a blank line give two separate `<ul>` blocks, not
the single block the claim demands. -/
theorem c2_counterexample :
    convert_lines_to_html [("- a").toList, ("").toList, ("- b").toList]
        = ("<ul><li>a</li></ul>\n<ul><li>b</li></ul>").toList ∧
    convert_lines_to_html [("- a").toList, ("- b").toList]
        = ("<ul><li>a</li><li>b</li></ul>").toList ∧
    convert_lines_to_html [("- a").toList, ("").toList, ("- b").toList]
      ≠ convert_lines_to_html [("- a").toList, ("- b").toList] := by
  refine ⟨by decide, by decide, by decide⟩

/-- C2 (amended): in the Block Converter, blank lines are never rendered
and separate blocks — a blank line ends any current block, including a
`"- "` list run, so the lines before and after a blank line are converted
independently and concatenated. -/
theorem c2_blank_lines (xs ys : List Text) (bl : Text) (hbl : strip bl = []) :
    html_parts (xs ++ bl :: ys) = html_parts xs ++ html_parts ys ∧
    convert_lines_to_html (xs ++ bl :: ys)
      = List.intercalate ('\n' :: []) (html_parts xs ++ html_parts ys) := by
  have h := html_parts_blank_split_bounded xs.length xs ys bl (Nat.le_refl _) hbl
  exact ⟨h, by rw [convert_lines_to_html, h]⟩

/-- C2 (witness): instantiation of the amended statement at the two-run
example with a blank separator. -/
theorem c2_witness :
    html_parts (([("- a").toList] : List Text) ++ ("").toList :: [("- b").toList])
      = html_parts [("- a").toList] ++ html_parts [("- b").toList] :=
  (c2_blank_lines [("- a").toList] [("- b").toList] (("").toList) (by decide)).1

theorem append_eq_append_cons {α} :
    ∀ (x y u v : List α) (a : α), x ++ y = u ++ a :: v →
      (∃ v1, x = u ++ a :: v1 ∧ v = v1 ++ y) ∨ (∃ u1, u = x ++ u1 ∧ y = u1 ++ a :: v) := by
  intro x
  induction x with
  | nil =>
    intro y u v a h
    exact Or.inr ⟨u, rfl, by simpa using h⟩
  | cons b x1 ih =>
    intro y u v a h
    cases u with
    | nil =>
      simp only [List.cons_append, List.nil_append] at h
      injection h with h1 h2
      subst h1
      exact Or.inl ⟨x1, rfl, h2.symm⟩
    | cons c u1 =>
      simp only [List.cons_append] at h
      injection h with h1 h2
      subst h1
      rcases ih y u1 v a h2 with ⟨v1, hx, hv⟩ | ⟨u2, hu, hy⟩
      · exact Or.inl ⟨v1, by rw [hx]; rfl, hv⟩
      · exact Or.inr ⟨u2, by rw [hu]; rfl, hy⟩

theorem startsWith_append_left {p a : Text} (b : Text) (h : startsWith p a = true) :
    startsWith p (a ++ b) = true := by
  obtain ⟨t, ht⟩ := startsWith_iff.mp h
  exact startsWith_iff.mpr ⟨t ++ b, by rw [ht, List.append_assoc]⟩

theorem endsWith_append_left {p b : Text} (a : Text) (h : endsWith p b = true) :
    endsWith p (a ++ b) = true := by
  rw [endsWith, List.reverse_append]
  exact startsWith_append_left _ h

theorem amp_ok_append {x y : Text} (hx : amp_ok x) (hy : amp_ok y) : amp_ok (x ++ y) := by
  intro u v h
  rcases append_eq_append_cons x y u v '&' h with ⟨v1, hxe, hv⟩ | ⟨u1, hu, hye⟩
  · obtain ⟨tl, htl, hsw⟩ := hx u v1 hxe
    exact ⟨tl, htl, hv ▸ startsWith_append_left y hsw⟩
  · exact hy u1 v hye

theorem lt_ok_append {x y : Text} (hx : lt_ok x) (hy : lt_ok y) : lt_ok (x ++ y) := by
  intro u v h
  rcases append_eq_append_cons x y u v '<' h with ⟨v1, hxe, hv⟩ | ⟨u1, hu, hye⟩
  · rcases hx u v1 hxe with h1 | h1
    · exact Or.inl (hv ▸ startsWith_append_left y h1)
    · exact Or.inr (hv ▸ startsWith_append_left y h1)
  · exact hy u1 v hye

theorem gt_ok_append {x y : Text} (hx : gt_ok x) (hy : gt_ok y) : gt_ok (x ++ y) := by
  intro u v h
  rcases append_eq_append_cons x y u v '>' h with ⟨v1, hxe, hv⟩ | ⟨u1, hu, hye⟩
  · exact hx u v1 hxe
  · rcases hy u1 v hye with h1 | h1
    · exact Or.inl (hu ▸ endsWith_append_left x h1)
    · exact Or.inr (hu ▸ endsWith_append_left x h1)

theorem amp_ok_of_no_amp {t : Text} (h : '&' ∉ t) : amp_ok t := by
  intro u v he
  exact absurd (by rw [he]; exact List.mem_append.mpr (Or.inr (by simp))) h

theorem lt_ok_of_no_lt {t : Text} (h : '<' ∉ t) : lt_ok t := by
  intro u v he
  exact absurd (by rw [he]; exact List.mem_append.mpr (Or.inr (by simp))) h

theorem gt_ok_of_no_gt {t : Text} (h : '>' ∉ t) : gt_ok t := by
  intro u v he
  exact absurd (by rw [he]; exact List.mem_append.mpr (Or.inr (by simp))) h

theorem amp_ok_amp_head {w : Text} (hw : '&' ∉ w)
    (hex : ∃ tl ∈ ENT_TAILS, startsWith tl w = true) : amp_ok ('&' :: w) := by
  intro u v he
  cases u with
  | nil =>
    injection he with h1 h2
    subst h2
    exact hex
  | cons c u1 =>
    injection he with h1 h2
    exact absurd (by rw [h2]; exact List.mem_append.mpr (Or.inr (by simp))) hw

theorem lt_ok_lt_head {w : Text} (hw : '<' ∉ w)
    (hex : startsWith (("strong>").toList) w = true ∨
      startsWith (("/strong>").toList) w = true) : lt_ok ('<' :: w) := by
  intro u v he
  cases u with
  | nil =>
    injection he with h1 h2
    subst h2
    exact hex
  | cons c u1 =>
    injection he with h1 h2
    exact absurd (by rw [h2]; exact List.mem_append.mpr (Or.inr (by simp))) hw

theorem gt_ok_gt_last {w : Text} (hw : '>' ∉ w)
    (hex : endsWith (("<strong").toList) w = true ∨
      endsWith (("</strong").toList) w = true) : gt_ok (w ++ ['>']) := by
  intro u v he
  rcases append_eq_append_cons w ['>'] u v '>' he with ⟨v1, hxe, hv⟩ | ⟨u1, hu, hye⟩
  · exact absurd (by rw [hxe]; exact List.mem_append.mpr (Or.inr (by simp))) hw
  · have : u1 = [] := by
      cases u1 with
      | nil => rfl
      | cons c u2 =>
        injection hye with h1 h2
        subst h1
        cases u2 <;> cases h2
    subst this
    rw [hu, List.append_nil]
    exact hex

theorem escape_cons (c : Char) (s : Text) : escape (c :: s) = escape_char c ++ escape s := rfl

theorem escape_char_no_specials (ch : Char) :
    '"' ∉ escape_char ch ∧ '\'' ∉ escape_char ch ∧ '<' ∉ escape_char ch ∧
      '>' ∉ escape_char ch := by
  rw [escape_char]
  split_ifs with h1 h2 h3 h4 h5
  · decide
  · decide
  · decide
  · decide
  · decide
  · refine ⟨?_, ?_, ?_, ?_⟩
    · simp only [List.mem_singleton]
      intro hcc
      exact h4 (by rw [← hcc]; rfl)
    · simp only [List.mem_singleton]
      intro hcc
      exact h5 (by rw [← hcc]; rfl)
    · simp only [List.mem_singleton]
      intro hcc
      exact h2 (by rw [← hcc]; rfl)
    · simp only [List.mem_singleton]
      intro hcc
      exact h3 (by rw [← hcc]; rfl)

theorem escape_no_specials (s : Text) :
    '"' ∉ escape s ∧ '\'' ∉ escape s ∧ '<' ∉ escape s ∧ '>' ∉ escape s := by
  induction s with
  | nil => refine ⟨?_, ?_, ?_, ?_⟩ <;> simp [escape]
  | cons c cs ih =>
    rw [escape_cons]
    obtain ⟨e1, e2, e3, e4⟩ := escape_char_no_specials c
    obtain ⟨i1, i2, i3, i4⟩ := ih
    refine ⟨?_, ?_, ?_, ?_⟩ <;> (intro hm; rcases List.mem_append.mp hm with hx | hx)
    · exact e1 hx
    · exact i1 hx
    · exact e2 hx
    · exact i2 hx
    · exact e3 hx
    · exact i3 hx
    · exact e4 hx
    · exact i4 hx

theorem escape_char_amp_ok (ch : Char) : amp_ok (escape_char ch) := by
  rw [escape_char]
  split_ifs with h1 h2 h3 h4 h5
  · exact amp_ok_amp_head (by decide) ⟨("amp;").toList, by decide, by decide⟩
  · exact amp_ok_amp_head (by decide) ⟨("lt;").toList, by decide, by decide⟩
  · exact amp_ok_amp_head (by decide) ⟨("gt;").toList, by decide, by decide⟩
  · exact amp_ok_amp_head (by decide) ⟨("quot;").toList, by decide, by decide⟩
  · exact amp_ok_amp_head (by decide) ⟨("#x27;").toList, by decide, by decide⟩
  · refine amp_ok_of_no_amp ?_
    simp only [List.mem_singleton]
    intro hcc
    exact h1 (by rw [← hcc]; rfl)

theorem escape_amp_ok (s : Text) : amp_ok (escape s) := by
  induction s with
  | nil => exact amp_ok_of_no_amp (by simp [escape])
  | cons c cs ih =>
    rw [escape_cons]
    exact amp_ok_append (escape_char_amp_ok c) ih

theorem strong_open_safe :
    amp_ok strong_open ∧ lt_ok strong_open ∧ gt_ok strong_open ∧
      '"' ∉ strong_open ∧ '\'' ∉ strong_open := by
  refine ⟨amp_ok_of_no_amp (by decide), ?_, ?_, by decide, by decide⟩
  · have he : strong_open = '<' :: ("strong>").toList := by decide
    rw [he]
    exact lt_ok_lt_head (by decide) (Or.inl (by decide))
  · have he : strong_open = ("<strong").toList ++ ['>'] := by decide
    rw [he]
    exact gt_ok_gt_last (by decide) (Or.inl (by decide))

theorem strong_close_safe :
    amp_ok strong_close ∧ lt_ok strong_close ∧ gt_ok strong_close ∧
      '"' ∉ strong_close ∧ '\'' ∉ strong_close := by
  refine ⟨amp_ok_of_no_amp (by decide), ?_, ?_, by decide, by decide⟩
  · have he : strong_close = '<' :: ("/strong>").toList := by decide
    rw [he]
    exact lt_ok_lt_head (by decide) (Or.inr (by decide))
  · have he : strong_close = ("</strong").toList ++ ['>'] := by decide
    rw [he]
    exact gt_ok_gt_last (by decide) (Or.inr (by decide))

theorem render_inline_safe_bounded :
    ∀ n (s : Text), s.length ≤ n →
      ('"' ∉ render_inline s ∧ '\'' ∉ render_inline s) ∧
        amp_ok (render_inline s) ∧ lt_ok (render_inline s) ∧ gt_ok (render_inline s) := by
  intro n
  induction n with
  | zero =>
    intro s h
    have : s = [] := by cases s with
      | nil => rfl
      | cons a as => simp at h
    subst this
    have heq : render_inline [] = escape [] := by
      have h0 := render_inline_eq []
      simpa using h0
    rw [heq]
    obtain ⟨e1, e2, e3, e4⟩ := escape_no_specials []
    exact ⟨⟨e1, e2⟩, escape_amp_ok [], lt_ok_of_no_lt e3, gt_ok_of_no_gt e4⟩
  | succ n ih =>
    intro s h
    cases hb : bold_find s with
    | none =>
      have heq := render_inline_eq s
      simp only [hb] at heq
      rw [heq]
      obtain ⟨e1, e2, e3, e4⟩ := escape_no_specials s
      exact ⟨⟨e1, e2⟩, escape_amp_ok s, lt_ok_of_no_lt e3, gt_ok_of_no_gt e4⟩
    | some pr =>
      obtain ⟨p, c, r⟩ := pr
      have hlen := bold_find_length hb
      have heq := render_inline_eq s
      simp only [hb] at heq
      rw [heq]
      obtain ⟨⟨r1, r2⟩, ra, rl, rg⟩ := ih r (by omega)
      obtain ⟨p1, p2, p3, p4⟩ := escape_no_specials p
      obtain ⟨c1, c2, c3, c4⟩ := escape_no_specials c
      obtain ⟨oa, ol, og, o1, o2⟩ := strong_open_safe
      obtain ⟨ca, cl, cg, cq1, cq2⟩ := strong_close_safe
      refine ⟨⟨?_, ?_⟩, ?_, ?_, ?_⟩
      · intro hm
        simp only [List.mem_append] at hm
        rcases hm with ((((hx | hx) | hx) | hx) | hx)
        · exact p1 hx
        · exact o1 hx
        · exact c1 hx
        · exact cq1 hx
        · exact r1 hx
      · intro hm
        simp only [List.mem_append] at hm
        rcases hm with ((((hx | hx) | hx) | hx) | hx)
        · exact p2 hx
        · exact o2 hx
        · exact c2 hx
        · exact cq2 hx
        · exact r2 hx
      · exact amp_ok_append (amp_ok_append (amp_ok_append
          (amp_ok_append (escape_amp_ok p) oa) (escape_amp_ok c)) ca) ra
      · exact lt_ok_append (lt_ok_append (lt_ok_append
          (lt_ok_append (lt_ok_of_no_lt p3) ol) (lt_ok_of_no_lt c3)) cl) rl
      · exact gt_ok_append (gt_ok_append (gt_ok_append
          (gt_ok_append (gt_ok_of_no_gt p4) og) (gt_ok_of_no_gt c4)) cg) rg

theorem escape_char_id {c : Char} (h : c ∉ special_chars) : escape_char c = [c] := by
  rw [escape_char]
  split_ifs with h1 h2 h3 h4 h5
  · exact absurd (by rw [eq_of_beq h1]; decide) h
  · exact absurd (by rw [eq_of_beq h2]; decide) h
  · exact absurd (by rw [eq_of_beq h3]; decide) h
  · exact absurd (by rw [eq_of_beq h4]; decide) h
  · exact absurd (by rw [eq_of_beq h5]; decide) h
  · rfl

theorem escape_id {s : Text} (h : ∀ ch ∈ s, ch ∉ special_chars) : escape s = s := by
  induction s with
  | nil => rfl
  | cons c cs ih =>
    rw [escape_cons, escape_char_id (h c (by simp)), ih (fun y hy => h y (by simp [hy]))]
    rfl

theorem bold_find_no_star {s : Text} (h : '*' ∉ s) : bold_find s = none := by
  induction s with
  | nil => rfl
  | cons c cs ih =>
    have hsw : ¬ startsWith ['*', '*'] (c :: cs) = true := by
      intro hs
      obtain ⟨t, ht⟩ := startsWith_iff.mp hs
      injection ht with ht1 ht2
      exact h (by rw [ht1]; simp)
    have hrec : bold_find cs = none := ih (fun hm => h (List.mem_cons_of_mem _ hm))
    rw [bold_find, if_neg hsw, hrec]

/-- C4: the Inline Renderer replaces the leftmost, lazy, non-overlapping
`**…**` span by exactly one emphasis tag wrapping the escaped inner text
and recurses on the rest; when no valid span exists the whole text — any
unmatched `**` included — is escaped literally; in the output a `"` or `'`
never occurs, every `&` begins an entity, every `<` begins and every `>`
ends one of the two inserted tags; and text free of the rewritten
characters passes through unchanged (it is never escaped at all, so no
text is escaped twice). -/
theorem c4_render_inline (s : Text) :
    (∀ p c r, bold_find s = some (p, c, r) →
      (ValidSpan s p c r ∧
       (∀ p' c' r', ValidSpan s p' c' r' →
         p.length < p'.length ∨ (p.length = p'.length ∧ c.length ≤ c'.length)) ∧
       render_inline s
         = escape p ++ strong_open ++ escape c ++ strong_close ++ render_inline r)) ∧
    (bold_find s = none →
      (¬ ∃ p c r, ValidSpan s p c r) ∧ render_inline s = escape s) ∧
    ('"' ∉ render_inline s ∧ '\'' ∉ render_inline s) ∧
    amp_ok (render_inline s) ∧ lt_ok (render_inline s) ∧ gt_ok (render_inline s) ∧
    ((∀ ch ∈ s, ch ∉ special_chars) → render_inline s = s) := by
  obtain ⟨hq, ha, hl, hg⟩ := render_inline_safe_bounded s.length s (Nat.le_refl _)
  refine ⟨?_, ?_, hq, ha, hl, hg, ?_⟩
  · intro p c r hb
    refine ⟨bold_find_some hb, bold_find_min hb, ?_⟩
    have heq := render_inline_eq s
    simp only [hb] at heq
    exact heq
  · intro hb
    have heq := render_inline_eq s
    simp only [hb] at heq
    exact ⟨bold_find_none hb, heq⟩
  · intro h
    have hstar : '*' ∉ s := fun hm => h '*' hm (by decide)
    have hb := bold_find_no_star hstar
    have heq := render_inline_eq s
    simp only [hb] at heq
    rw [heq]
    exact escape_id h

/-- C4 (witness): the characterisation applied at `"**X** <&>"` (a valid
span is found at the front) and at `"abc"` (no rewritten character, output
unchanged). -/
theorem c4_witness :
    ValidSpan (("**X** <&>").toList) [] ('X' :: []) ((" <&>").toList) ∧
    render_inline (("abc").toList) = ("abc").toList := by
  constructor
  · exact ((c4_render_inline (("**X** <&>").toList)).1 [] ('X' :: [])
      ((" <&>").toList) (by decide)).1
  · exact (c4_render_inline (("abc").toList)).2.2.2.2.2.2 (by decide)

theorem word_end_ok_iff {t : Text} : word_end_ok t = true ↔ bound_after_ok t := by
  cases t with
  | nil => simp [word_end_ok, bound_after_ok]
  | cons c cs =>
    simp only [word_end_ok, bound_after_ok, List.head?_cons]
    constructor
    · intro h
      cases hw : is_word_char c
      · rfl
      · rw [hw] at h; cases h
    · intro h
      rw [h]
      rfl

theorem day_check_sound {name s : Text} (h : day_check name s = true) :
    ∃ w post, s = w ++ post ∧ w.map Char.toLower = name ∧ bound_after_ok post := by
  rw [day_check, Bool.and_eq_true] at h
  obtain ⟨hsw, hwe⟩ := h
  obtain ⟨t, ht⟩ := startsWith_iff.mp hsw
  refine ⟨s.take name.length, s.drop name.length, (List.take_append_drop _ _).symm, ?_, ?_⟩
  · rw [List.map_take, ht]
    exact List.take_left name t
  · exact word_end_ok_iff.mp hwe

theorem day_check_complete {name s w post : Text} (hsplit : s = w ++ post)
    (hmap : w.map Char.toLower = name) (hafter : bound_after_ok post) :
    day_check name s = true := by
  have hlen : w.length = name.length := by rw [← hmap]; simp
  rw [day_check, Bool.and_eq_true]
  constructor
  · refine startsWith_iff.mpr ⟨post.map Char.toLower, ?_⟩
    rw [hsplit, List.map_append, hmap]
  · rw [hsplit, ← hlen, List.drop_left]
    exact word_end_ok_iff.mpr hafter

theorem startsWith_of_prefixes {p q s : Text} (hp : startsWith p s = true)
    (hq : startsWith q s = true) (hle : p.length ≤ q.length) :
    startsWith p q = true := by
  obtain ⟨tp, htp⟩ := startsWith_iff.mp hp
  obtain ⟨tq, htq⟩ := startsWith_iff.mp hq
  refine startsWith_iff.mpr ⟨q.drop p.length, ?_⟩
  have h1 : p ++ tp = q ++ tq := htp.symm.trans htq
  have h2 : q = (p ++ tp).take q.length := by
    rw [h1, List.take_left]
  rw [h2, List.take_append_eq_append_take]
  have h3 : p.take q.length = p := List.take_of_length_le (by omega)
  rw [h3]
  congr 1
  rw [List.drop_append_eq_append_drop]
  rw [List.drop_of_length_le (by omega)]
  simp

theorem day_check_both {s n1 n2 : Text} (h1 : day_check n1 s = true)
    (h2 : day_check n2 s = true) (hle : n1.length ≤ n2.length) :
    startsWith n1 n2 = true := by
  rw [day_check, Bool.and_eq_true] at h1 h2
  exact startsWith_of_prefixes h1.1 h2.1 hle

theorem day_at_sound {s : Text} {k : Nat} (h : day_at s = some k) :
    ∃ name w post, (name, k) ∈ DAY_NAMES ∧ s = w ++ post ∧
      w.map Char.toLower = name ∧ bound_after_ok post := by
  rw [day_at] at h
  split_ifs at h with c1 c2 c3 c4 c5 c6 c7 <;>
    (injection h with hk; subst hk)
  · obtain ⟨w, post, h1, h2, h3⟩ := day_check_sound c1
    exact ⟨_, w, post, by decide, h1, h2, h3⟩
  · obtain ⟨w, post, h1, h2, h3⟩ := day_check_sound c2
    exact ⟨_, w, post, by decide, h1, h2, h3⟩
  · obtain ⟨w, post, h1, h2, h3⟩ := day_check_sound c3
    exact ⟨_, w, post, by decide, h1, h2, h3⟩
  · obtain ⟨w, post, h1, h2, h3⟩ := day_check_sound c4
    exact ⟨_, w, post, by decide, h1, h2, h3⟩
  · obtain ⟨w, post, h1, h2, h3⟩ := day_check_sound c5
    exact ⟨_, w, post, by decide, h1, h2, h3⟩
  · obtain ⟨w, post, h1, h2, h3⟩ := day_check_sound c6
    exact ⟨_, w, post, by decide, h1, h2, h3⟩
  · obtain ⟨w, post, h1, h2, h3⟩ := day_check_sound c7
    exact ⟨_, w, post, by decide, h1, h2, h3⟩

theorem day_at_complete {s name : Text} {k : Nat}
    (hmem : (name, k) ∈ DAY_NAMES) (hc : day_check name s = true) :
    day_at s = some k := by
  have hkill : ∀ n2 : Text, day_check n2 s = true →
      (startsWith name n2 = false) → (startsWith n2 name = false) → False := by
    intro n2 hc2 hf1 hf2
    by_cases hle : name.length ≤ n2.length
    · rw [day_check_both hc hc2 hle] at hf1
      cases hf1
    · rw [day_check_both hc2 hc (by omega)] at hf2
      cases hf2
  simp only [DAY_NAMES, List.mem_cons, List.mem_singleton, Prod.mk.injEq,
    List.not_mem_nil] at hmem
  rw [day_at]
  rcases hmem with ⟨h1, h2⟩ | ⟨h1, h2⟩ | ⟨h1, h2⟩ | ⟨h1, h2⟩ | ⟨h1, h2⟩ | ⟨h1, h2⟩ |
    ⟨h1, h2⟩ | hfalse
  · subst h1; subst h2
    rw [if_pos hc]
  · subst h1; subst h2
    rw [if_neg (fun hx => hkill _ hx (by decide) (by decide)), if_pos hc]
  · subst h1; subst h2
    rw [if_neg (fun hx => hkill _ hx (by decide) (by decide)),
      if_neg (fun hx => hkill _ hx (by decide) (by decide)), if_pos hc]
  · subst h1; subst h2
    rw [if_neg (fun hx => hkill _ hx (by decide) (by decide)),
      if_neg (fun hx => hkill _ hx (by decide) (by decide)),
      if_neg (fun hx => hkill _ hx (by decide) (by decide)), if_pos hc]
  · subst h1; subst h2
    rw [if_neg (fun hx => hkill _ hx (by decide) (by decide)),
      if_neg (fun hx => hkill _ hx (by decide) (by decide)),
      if_neg (fun hx => hkill _ hx (by decide) (by decide)),
      if_neg (fun hx => hkill _ hx (by decide) (by decide)), if_pos hc]
  · subst h1; subst h2
    rw [if_neg (fun hx => hkill _ hx (by decide) (by decide)),
      if_neg (fun hx => hkill _ hx (by decide) (by decide)),
      if_neg (fun hx => hkill _ hx (by decide) (by decide)),
      if_neg (fun hx => hkill _ hx (by decide) (by decide)),
      if_neg (fun hx => hkill _ hx (by decide) (by decide)), if_pos hc]
  · subst h1; subst h2
    rw [if_neg (fun hx => hkill _ hx (by decide) (by decide)),
      if_neg (fun hx => hkill _ hx (by decide) (by decide)),
      if_neg (fun hx => hkill _ hx (by decide) (by decide)),
      if_neg (fun hx => hkill _ hx (by decide) (by decide)),
      if_neg (fun hx => hkill _ hx (by decide) (by decide)),
      if_neg (fun hx => hkill _ hx (by decide) (by decide)), if_pos hc]
  · exact absurd hfalse (by decide)

theorem OccAtP_cons {prevW : Bool} {ch : Char} {cs pre : Text} {k : Nat} :
    OccAtP prevW (ch :: cs) (ch :: pre) k ↔ OccAtP (is_word_char ch) cs pre k := by
  constructor
  · rintro ⟨name, w, post, hmem, hsplit, hmap, hbefore, hafter⟩
    refine ⟨name, w, post, hmem, by simpa using hsplit, hmap, ?_, hafter⟩
    cases pre with
    | nil => simpa [bound_before_ok] using hbefore
    | cons p ps => simpa [bound_before_ok, List.getLast?_cons_cons] using hbefore
  · rintro ⟨name, w, post, hmem, hsplit, hmap, hbefore, hafter⟩
    refine ⟨name, w, post, hmem, by simp [hsplit], hmap, ?_, hafter⟩
    cases pre with
    | nil => simpa [bound_before_ok] using hbefore
    | cons p ps => simpa [bound_before_ok, List.getLast?_cons_cons] using hbefore

theorem OccAtP_nil {prevW : Bool} {s : Text} {k : Nat} :
    OccAtP prevW s [] k ↔ (prevW = false ∧ ∃ name w post, (name, k) ∈ DAY_NAMES ∧
      s = w ++ post ∧ w.map Char.toLower = name ∧ bound_after_ok post) := by
  constructor
  · rintro ⟨name, w, post, hmem, hsplit, hmap, hbefore, hafter⟩
    exact ⟨by simpa [bound_before_ok] using hbefore,
      name, w, post, hmem, by simpa using hsplit, hmap, hafter⟩
  · rintro ⟨hpw, name, w, post, hmem, hsplit, hmap, hafter⟩
    exact ⟨name, w, post, hmem, by simpa using hsplit, hmap,
      by simpa [bound_before_ok] using hpw, hafter⟩

theorem OccAtP_head {prevW : Bool} {ch : Char} {cs pre : Text} {k : Nat}
    (h : OccAtP prevW (ch :: cs) pre k) : pre = [] ∨ ∃ pre', pre = ch :: pre' := by
  obtain ⟨name, w, post, hmem, hsplit, -⟩ := h
  cases pre with
  | nil => exact Or.inl rfl
  | cons p ps =>
    refine Or.inr ⟨ps, ?_⟩
    have hpc : ch = p := by simpa using congrArg List.head? hsplit
    rw [hpc]

theorem OccAtP_not_nil_s {prevW : Bool} {pre : Text} {k : Nat} :
    ¬ OccAtP prevW [] pre k := by
  rintro ⟨name, w, post, hmem, hsplit, hmap, -, -⟩
  have hname : name ≠ [] := by
    simp only [DAY_NAMES, List.mem_cons, List.mem_singleton, Prod.mk.injEq,
      List.not_mem_nil] at hmem
    rcases hmem with ⟨h1, -⟩ | ⟨h1, -⟩ | ⟨h1, -⟩ | ⟨h1, -⟩ | ⟨h1, -⟩ | ⟨h1, -⟩ |
      ⟨h1, -⟩ | hfalse
    · subst h1; decide
    · subst h1; decide
    · subst h1; decide
    · subst h1; decide
    · subst h1; decide
    · subst h1; decide
    · subst h1; decide
    · exact absurd hfalse (by decide)
  have hw : w ≠ [] := by
    intro hw0
    subst hw0
    exact hname (by rw [← hmap]; rfl)
  have hlen := congrArg List.length hsplit
  simp only [List.length_nil, List.length_append] at hlen
  have hwp : 0 < w.length := List.length_pos.mpr hw
  omega

theorem day_at_range {s : Text} {k : Nat} (h : day_at s = some k) :
    1 ≤ k ∧ k ≤ 7 := by
  rw [day_at] at h
  split_ifs at h <;> (injection h with hk; subst hk; exact ⟨by omega, by omega⟩)

theorem extract_weekday_go_spec :
    ∀ (s : Text) (prevW : Bool),
      (∀ k, extract_weekday_go prevW s = some k →
        ∃ pre, OccAtP prevW s pre k ∧
          ∀ pre' k', OccAtP prevW s pre' k' → pre.length ≤ pre'.length) ∧
      (extract_weekday_go prevW s = none ↔ ¬ ∃ k pre, OccAtP prevW s pre k) := by
  intro s
  induction s with
  | nil =>
    intro prevW
    constructor
    · intro k h
      simp [extract_weekday_go] at h
    · constructor
      · rintro - ⟨k, pre, hocc⟩
        exact OccAtP_not_nil_s hocc
      · intro _
        rfl
  | cons ch cs ih =>
    intro prevW
    obtain ⟨ihs, ihn⟩ := ih (is_word_char ch)
    cases prevW with
    | true =>
      have hgo : extract_weekday_go true (ch :: cs)
          = extract_weekday_go (is_word_char ch) cs := by
        simp [extract_weekday_go]
      have htrans : ∀ pre k, OccAtP true (ch :: cs) pre k ↔
          ∃ pre', pre = ch :: pre' ∧ OccAtP (is_word_char ch) cs pre' k := by
        intro pre k
        constructor
        · intro h
          rcases OccAtP_head h with rfl | ⟨pre', rfl⟩
          · exact absurd (OccAtP_nil.mp h).1 (by simp)
          · exact ⟨pre', rfl, OccAtP_cons.mp h⟩
        · rintro ⟨pre', rfl, h⟩
          exact OccAtP_cons.mpr h
      constructor
      · intro k h
        rw [hgo] at h
        obtain ⟨pre', hocc', hmin'⟩ := ihs k h
        refine ⟨ch :: pre', (htrans _ _).mpr ⟨pre', rfl, hocc'⟩, ?_⟩
        intro pre'' k'' hocc''
        rcases (htrans _ _).mp hocc'' with ⟨q, rfl, hq⟩
        simpa using Nat.succ_le_succ (hmin' q k'' hq)
      · rw [hgo, ihn]
        apply not_congr
        constructor
        · rintro ⟨k, pre', h⟩
          exact ⟨k, ch :: pre', (htrans _ _).mpr ⟨pre', rfl, h⟩⟩
        · rintro ⟨k, pre, h⟩
          rcases (htrans _ _).mp h with ⟨q, rfl, hq⟩
          exact ⟨k, q, hq⟩
    | false =>
      cases hda : day_at (ch :: cs) with
      | some k0 =>
        have hgo : extract_weekday_go false (ch :: cs) = some k0 := by
          simp [extract_weekday_go, hda]
        have hocc0 : OccAtP false (ch :: cs) [] k0 := by
          obtain ⟨name, w, post, hmem, hsplit, hmap, hafter⟩ := day_at_sound hda
          exact OccAtP_nil.mpr ⟨rfl, name, w, post, hmem, hsplit, hmap, hafter⟩
        constructor
        · intro k h
          rw [hgo] at h
          injection h with hk
          subst hk
          exact ⟨[], hocc0, fun pre' k' _ => by simp⟩
        · rw [hgo]
          constructor
          · intro h
            cases h
          · intro hno
            exact absurd ⟨k0, [], hocc0⟩ hno
      | none =>
        have hgo : extract_weekday_go false (ch :: cs)
            = extract_weekday_go (is_word_char ch) cs := by
          simp [extract_weekday_go, hda]
        have hnofront : ∀ k, ¬ OccAtP false (ch :: cs) [] k := by
          intro k h
          obtain ⟨-, name, w, post, hmem, hsplit, hmap, hafter⟩ := OccAtP_nil.mp h
          have hsome := day_at_complete hmem (day_check_complete hsplit hmap hafter)
          rw [hsome] at hda
          cases hda
        have htrans : ∀ pre k, OccAtP false (ch :: cs) pre k ↔
            ∃ pre', pre = ch :: pre' ∧ OccAtP (is_word_char ch) cs pre' k := by
          intro pre k
          constructor
          · intro h
            rcases OccAtP_head h with rfl | ⟨pre', rfl⟩
            · exact absurd h (hnofront k)
            · exact ⟨pre', rfl, OccAtP_cons.mp h⟩
          · rintro ⟨pre', rfl, h⟩
            exact OccAtP_cons.mpr h
        constructor
        · intro k h
          rw [hgo] at h
          obtain ⟨pre', hocc', hmin'⟩ := ihs k h
          refine ⟨ch :: pre', (htrans _ _).mpr ⟨pre', rfl, hocc'⟩, ?_⟩
          intro pre'' k'' hocc''
          rcases (htrans _ _).mp hocc'' with ⟨q, rfl, hq⟩
          simpa using Nat.succ_le_succ (hmin' q k'' hq)
        · rw [hgo, ihn]
          apply not_congr
          constructor
          · rintro ⟨k, pre', h⟩
            exact ⟨k, ch :: pre', (htrans _ _).mpr ⟨pre', rfl, h⟩⟩
          · rintro ⟨k, pre, h⟩
            rcases (htrans _ _).mp h with ⟨q, rfl, hq⟩
            exact ⟨k, q, hq⟩

theorem extract_weekday_go_range :
    ∀ (s : Text) (prevW : Bool) k, extract_weekday_go prevW s = some k →
      1 ≤ k ∧ k ≤ 7 := by
  intro s
  induction s with
  | nil =>
    intro prevW k h
    simp [extract_weekday_go] at h
  | cons ch cs ih =>
    intro prevW k h
    cases prevW with
    | true =>
      have hgo : extract_weekday_go true (ch :: cs)
          = extract_weekday_go (is_word_char ch) cs := by
        simp [extract_weekday_go]
      rw [hgo] at h
      exact ih _ k h
    | false =>
      cases hda : day_at (ch :: cs) with
      | some k0 =>
        have hgo : extract_weekday_go false (ch :: cs) = some k0 := by
          simp [extract_weekday_go, hda]
        rw [hgo] at h
        injection h with hk
        subst hk
        exact day_at_range hda
      | none =>
        have hgo : extract_weekday_go false (ch :: cs)
            = extract_weekday_go (is_word_char ch) cs := by
          simp [extract_weekday_go, hda]
        rw [hgo] at h
        exact ih _ k h

theorem extract_weekday_range {s : Text} {k : Nat}
    (h : extract_weekday s = some k) : 1 ≤ k ∧ k ≤ 7 :=
  extract_weekday_go_range s false k h

/-- C6: the Weekday Resolver returns the ISO number of the leftmost
case-insensitive whole-word occurrence of one of the seven English weekday
names (word characters are alphanumerics and underscore), returns `none`
when no such whole-word occurrence exists, and in particular a weekday
name embedded in a longer word, as in `"On Mondayish Street"`, does not
match. -/
theorem c6_extract_weekday (s : Text) :
    (∀ k, extract_weekday s = some k →
      ∃ pre, OccAt s pre k ∧ ∀ pre' k', OccAt s pre' k' → pre.length ≤ pre'.length) ∧
    (extract_weekday s = none ↔ ¬ ∃ k pre, OccAt s pre k) ∧
    extract_weekday (("On Mondayish Street").toList) = none := by
  obtain ⟨h1, h2⟩ := extract_weekday_go_spec s false
  exact ⟨h1, h2, by decide⟩

/-- C6 (witness): the characterisation instantiated at a label with an
embedded weekday name (no occurrence at all) and at a label with a genuine
whole-word weekday name. -/
theorem c6_witness :
    (¬ ∃ k pre, OccAt (("On Mondayish Street").toList) pre k) ∧
    (∃ pre, OccAt (("Taco Tuesday").toList) pre 2) := by
  constructor
  · exact ((c6_extract_weekday (("On Mondayish Street").toList)).2.1).mp (by decide)
  · obtain ⟨pre, hocc, -⟩ :=
      (c6_extract_weekday (("Taco Tuesday").toList)).1 2 (by decide)
    exact ⟨pre, hocc⟩

theorem fromisocalendar_spec (y w d : Nat) (hd1 : 1 ≤ d) (hd7 : d ≤ 7) :
    (iso_valid y w ∧ ∃ dt, fromisocalendar y w d = .ok dt) ∨
    (¬ iso_valid y w ∧ ∃ e, fromisocalendar y w d = .error e) := by
  rw [fromisocalendar]
  split_ifs with g1 g2 g3
  · refine Or.inr ⟨?_, _, rfl⟩
    simp only [Bool.or_eq_true, decide_eq_true_eq] at g1
    rintro ⟨hy1, hy2, -⟩
    omega
  · refine Or.inr ⟨?_, _, rfl⟩
    simp only [Bool.or_eq_true, decide_eq_true_eq, Bool.and_eq_true, beq_iff_eq,
      Bool.not_eq_true'] at g2
    rintro ⟨-, -, hw1, hw2 | ⟨hw2, hw3⟩⟩
    · rcases g2 with (h | h) | ⟨h, -⟩ <;> omega
    · rcases g2 with (h | h) | ⟨-, h⟩
      · omega
      · omega
      · rw [hw3] at h
        cases h
  · exfalso
    simp only [Bool.or_eq_true, decide_eq_true_eq] at g3
    omega
  · refine Or.inl ⟨?_, _, rfl⟩
    simp only [Bool.or_eq_true, decide_eq_true_eq, not_or] at g1
    simp only [Bool.or_eq_true, decide_eq_true_eq, Bool.and_eq_true, beq_iff_eq,
      Bool.not_eq_true', not_or] at g2
    obtain ⟨hy1, hy2⟩ := g1
    obtain ⟨⟨hw1, hw2⟩, hw3⟩ := g2
    refine ⟨by omega, by omega, by omega, ?_⟩
    by_cases hw53 : w = 53
    · right
      refine ⟨hw53, ?_⟩
      cases hlong : iso_long_year y
      · exact absurd ⟨hw53, hlong⟩ hw3
      · rfl
    · left
      omega

theorem build_iso_go_ok (year week : Nat) :
    ∀ (ds : List Nat) (m : List (Nat × YMD)),
      build_iso_go year week ds = .ok m →
      m.map Prod.fst = ds ∧ ∀ p ∈ m, fromisocalendar year week p.1 = .ok p.2 := by
  intro ds
  induction ds with
  | nil =>
    intro m h
    simp only [build_iso_go] at h
    injection h with hm
    subst hm
    exact ⟨rfl, by intro p hp; cases hp⟩
  | cons d ds ih =>
    intro m h
    rw [build_iso_go] at h
    cases hf : fromisocalendar year week d with
    | error e => rw [hf] at h; cases h
    | ok dt =>
      rw [hf] at h
      cases hg : build_iso_go year week ds with
      | error e => rw [hg] at h; cases h
      | ok rest =>
        rw [hg] at h
        injection h with hm
        subst hm
        obtain ⟨hmap, hall⟩ := ih rest hg
        refine ⟨by simp [hmap], ?_⟩
        intro p hp
        rcases List.mem_cons.mp hp with rfl | hp2
        · exact hf
        · exact hall p hp2

theorem lookup_of_map_fst :
    ∀ (m : List (Nat × YMD)) (d : Nat), d ∈ m.map Prod.fst →
      ∃ dt, m.lookup d = some dt ∧ (d, dt) ∈ m := by
  intro m
  induction m with
  | nil =>
    intro d hd
    cases hd
  | cons p m' ih =>
    intro d hd
    by_cases hdk : d = p.1
    · refine ⟨p.2, ?_, by rw [hdk]; exact List.mem_cons_self _ _⟩
      have hbeq : (d == p.1) = true := beq_iff_eq.mpr hdk
      rw [show (p :: m') = (p.1, p.2) :: m' from rfl, List.lookup, hbeq]
    · simp only [List.map_cons, List.mem_cons] at hd
      rcases hd with rfl | hd2
      · exact absurd rfl hdk
      · obtain ⟨dt, hl, hm⟩ := ih d hd2
        refine ⟨dt, ?_, List.mem_cons_of_mem _ hm⟩
        have hbeq : (d == p.1) = false := by simp [hdk]
        rw [show (p :: m') = (p.1, p.2) :: m' from rfl, List.lookup, hbeq]
        exact hl

/-- C7: the ISO date map of `main` is all-or-nothing: for a valid
(year, isoWeek) pair all seven dates are produced (keys 1..7 all present,
each computed by the ISO-8601 week-date conversion), and for an
out-of-range pair the construction fails with the invalid-week error and no
partial map exists; concretely, year 2026 ISO week 9 yields Monday
2026-02-23 through Sunday 2026-03-01, and week 54 (any year) or week 53 of
the 52-week year 2025 fail. -/
theorem c7_iso_dates :
    build_iso_dates 2026 9 = .ok [(1, ⟨2026, 2, 23⟩), (2, ⟨2026, 2, 24⟩),
      (3, ⟨2026, 2, 25⟩), (4, ⟨2026, 2, 26⟩), (5, ⟨2026, 2, 27⟩),
      (6, ⟨2026, 2, 28⟩), (7, ⟨2026, 3, 1⟩)] ∧
    (∀ y w, (∃ e, build_iso_dates y w = .error e) ↔ ¬ iso_valid y w) ∧
    (∀ y w m, build_iso_dates y w = .ok m →
      m.length = 7 ∧ ∀ d, 1 ≤ d → d ≤ 7 →
        ∃ dt, m.lookup d = some dt ∧ fromisocalendar y w d = .ok dt) ∧
    build_iso_dates 2026 54 = .error ("Invalid week") ∧
    build_iso_dates 2025 53 = .error ("Invalid week") := by
  refine ⟨by decide, ?_, ?_, by decide, by decide⟩
  · intro y w
    constructor
    · rintro ⟨e, he⟩ hval
      have hok : ∀ d, 1 ≤ d → d ≤ 7 → ∃ dt, fromisocalendar y w d = .ok dt := by
        intro d a b
        rcases fromisocalendar_spec y w d a b with ⟨-, h⟩ | ⟨hnv, -⟩
        · exact h
        · exact absurd hval hnv
      obtain ⟨dt1, e1⟩ := hok 1 (by omega) (by omega)
      obtain ⟨dt2, e2⟩ := hok 2 (by omega) (by omega)
      obtain ⟨dt3, e3⟩ := hok 3 (by omega) (by omega)
      obtain ⟨dt4, e4⟩ := hok 4 (by omega) (by omega)
      obtain ⟨dt5, e5⟩ := hok 5 (by omega) (by omega)
      obtain ⟨dt6, e6⟩ := hok 6 (by omega) (by omega)
      obtain ⟨dt7, e7⟩ := hok 7 (by omega) (by omega)
      rw [build_iso_dates] at he
      simp only [build_iso_go, e1, e2, e3, e4, e5, e6, e7] at he
      exact Except.noConfusion he
    · intro hnv
      rcases fromisocalendar_spec y w 1 (by omega) (by omega) with ⟨hval, -⟩ | ⟨-, e, he⟩
      · exact absurd hval hnv
      · refine ⟨e, ?_⟩
        rw [build_iso_dates]
        simp only [build_iso_go, he]
  · intro y w m h
    obtain ⟨hmap, hall⟩ := build_iso_go_ok y w [1, 2, 3, 4, 5, 6, 7] m h
    constructor
    · have := congrArg List.length hmap
      simpa using this
    · intro d hd1 hd7
      have hdm : d ∈ m.map Prod.fst := by
        rw [hmap]
        simp only [List.mem_cons, List.mem_singleton]
        omega
      obtain ⟨dt, hl, hm⟩ := lookup_of_map_fst m d hdm
      exact ⟨dt, hl, hall (d, dt) hm⟩

/-- C7 (witness): instantiations at the concrete pairs — the full map for
(2026, 9) with the Monday entry, and the failing week 54. -/
theorem c7_witness :
    (∃ dt, (([(1, (⟨2026, 2, 23⟩ : YMD)), (2, ⟨2026, 2, 24⟩), (3, ⟨2026, 2, 25⟩),
      (4, ⟨2026, 2, 26⟩), (5, ⟨2026, 2, 27⟩), (6, ⟨2026, 2, 28⟩),
      (7, ⟨2026, 3, 1⟩)] : List (Nat × YMD)).lookup 1 = some dt ∧
      fromisocalendar 2026 9 1 = .ok dt)) ∧
    (∃ e, build_iso_dates 2026 54 = .error e) := by
  constructor
  · exact ((c7_iso_dates.2.2.1 2026 9 _ c7_iso_dates.1).2 1 (by omega) (by omega))
  · exact (c7_iso_dates.2.1 2026 54).mpr (by simp only [iso_valid]; decide)

theorem weekday_number_eq (dl : Text) : weekday_number dl = extract_weekday dl := by
  rw [weekday_number]
  by_cases h : dl.isEmpty = true
  · rw [if_pos h]
    have hdl : dl = [] := by
      cases dl with
      | nil => rfl
      | cons a as => cases h
    rw [hdl]
    rfl
  · rw [if_neg h]

/-- C5: the Heading Splitter evaluated at the spec's example input.  The
source file's first delimiter literal consists of the characters
U+00E2 U+20AC U+201C (the UTF-8 bytes of the en-dash U+2013 mis-decoded as
cp1252), not of a real spaced en-dash, so `"Monday – Pizza Night"` with a
genuine en-dash does not split (day label empty, whole heading kept as
title), while the mojibake form does split; a heading without any
delimiter is returned whole with an empty day label. -/
theorem c5_split_day_and_title :
    split_day_and_title (("Monday – Pizza Night").toList)
        = ([], ("Monday – Pizza Night").toList) ∧
    split_day_and_title (("Monday â€“ Pizza Night").toList)
        = (("Monday").toList, ("Pizza Night").toList) ∧
    split_day_and_title (("Weeknight Special").toList)
        = ([], ("Weeknight Special").toList) := by
  refine ⟨by decide, by decide, by decide⟩

/-- C8: a resolved calendar date is rendered in a card exactly when the
Weekday Resolver finds a weekday in the section's day label and a (fully
populated) ISO date map was supplied; with either missing the date span is
empty and the card is still assembled from its remaining parts. -/
theorem c8_date_iff (iso : Option (List (Nat × YMD))) (raw : Text)
    (hfull : ∀ m, iso = some m → full_map m) :
    (date_html iso (weekday_number (split_day_and_title raw).1) ≠ [] ↔
      (iso ≠ none ∧ extract_weekday (split_day_and_title raw).1 ≠ none)) ∧
    (∀ sec : MealSection,
      render_card iso sec
        = CARD_A ++ day_html iso (split_day_and_title sec.raw_title).1 ++ CARD_B
          ++ escape (split_day_and_title sec.raw_title).2 ++ CARD_C
          ++ convert_lines_to_html sec.lines ++ CARD_D) := by
  refine ⟨?_, fun sec => rfl⟩
  rw [weekday_number_eq]
  constructor
  · intro hne
    cases hmd : meal_date iso (extract_weekday (split_day_and_title raw).1) with
    | none =>
      rw [date_html, hmd] at hne
      exact absurd rfl hne
    | some d =>
      cases iso with
      | none =>
        rw [show meal_date none (extract_weekday (split_day_and_title raw).1)
          = none from rfl] at hmd
        cases hmd
      | some m =>
        cases hew : extract_weekday (split_day_and_title raw).1 with
        | none =>
          rw [hew] at hmd
          rw [show meal_date (some m) none = none from rfl] at hmd
          cases hmd
        | some n => exact ⟨by simp, by simp [hew]⟩
  · rintro ⟨hiso, hew⟩
    cases iso with
    | none => exact absurd rfl hiso
    | some m =>
      cases hewv : extract_weekday (split_day_and_title raw).1 with
      | none => exact absurd hewv hew
      | some n =>
        have hfm := hfull m rfl
        obtain ⟨h1, h7⟩ := extract_weekday_range hewv
        have hsome := hfm n (by omega) h1
        obtain ⟨dt, hdt⟩ := Option.isSome_iff_exists.mp hsome
        have hmne : (m.isEmpty : Bool) = false := by
          cases m with
          | nil =>
            rw [show List.lookup n ([] : List (Nat × YMD)) = none from rfl] at hdt
            cases hdt
          | cons p m' => rfl
        have hmd : meal_date (some m) (some n) = some dt := by
          rw [show meal_date (some m) (some n)
            = (if !m.isEmpty && !(n == 0) then m.lookup n else none) from rfl]
          rw [if_pos (by simp [hmne]; omega)]
          exact hdt
        rw [date_html, hmd]
        intro hcontra
        simp only [List.append_eq_nil] at hcontra
        exact absurd hcontra.1.1 (by decide)

/-- C8 (witness): with the full week-9 map of 2026 and the heading
`"Monday - Pizza Night"` (spaced hyphen), a date is rendered; with no map
supplied it is not. -/
theorem c8_witness :
    (date_html (some [(1, (⟨2026, 2, 23⟩ : YMD)), (2, ⟨2026, 2, 24⟩),
        (3, ⟨2026, 2, 25⟩), (4, ⟨2026, 2, 26⟩), (5, ⟨2026, 2, 27⟩),
        (6, ⟨2026, 2, 28⟩), (7, ⟨2026, 3, 1⟩)])
      (weekday_number (split_day_and_title (("Monday - Pizza Night").toList)).1) ≠ []) ∧
    (¬ date_html none
      (weekday_number (split_day_and_title (("Monday - Pizza Night").toList)).1) ≠ []) := by
  constructor
  · exact (c8_date_iff (some [(1, ⟨2026, 2, 23⟩), (2, ⟨2026, 2, 24⟩),
      (3, ⟨2026, 2, 25⟩), (4, ⟨2026, 2, 26⟩), (5, ⟨2026, 2, 27⟩),
      (6, ⟨2026, 2, 28⟩), (7, ⟨2026, 3, 1⟩)])
      (("Monday - Pizza Night").toList)
      (by
        intro m hm
        injection hm with hm2
        subst hm2
        intro d hd8 hd1
        interval_cases d <;> decide)).1.mpr
      ⟨by simp, by decide⟩
  · intro hcontra
    have := (c8_date_iff none (("Monday - Pizza Night").toList)
      (by rintro m h; cases h)).1.mp hcontra
    exact absurd this.1 (by simp)

/-- C10 (counterexample): the claim's example heading `"Someday – Stew"`
uses a real spaced en-dash, which is not one of the file's delimiter byte
sequences, so the Heading Splitter returns an empty day label and no day
line is rendered — with or without an ISO date map. -/
theorem c10_counterexample :
    (split_day_and_title (("Someday – Stew").toList)).1 = [] ∧
    day_html none (split_day_and_title (("Someday – Stew").toList)).1 = [] ∧
    day_html (some [(1, (⟨2026, 2, 23⟩ : YMD))])
      (split_day_and_title (("Someday – Stew").toList)).1 = [] := by
  refine ⟨by decide, by decide, by decide⟩

/-- C10 (amended): the Document Assembler emits the day/date line iff the
Heading Splitter returns a non-empty day label; a section whose heading
splits into a non-empty day label containing no recognised weekday name —
e.g. `"Someday - Stew"` with a spaced hyphen — still renders a day line
showing the escaped label, just without a date. -/
theorem c10_day_line (iso : Option (List (Nat × YMD))) (dl : Text) :
    (day_html iso dl ≠ [] ↔ dl ≠ []) ∧
    split_day_and_title (("Someday - Stew").toList)
      = (("Someday").toList, ("Stew").toList) ∧
    extract_weekday (("Someday").toList) = none ∧
    day_html iso (("Someday").toList)
      = ("<p class=\"meal-day\"><span class=\"day-name\">Someday</span></p>").toList := by
  refine ⟨?_, by decide, by decide, ?_⟩
  · constructor
    · intro hne
      intro hdl
      subst hdl
      rw [day_html] at hne
      exact absurd rfl hne
    · intro hdl
      rw [day_html, if_neg (by
        cases dl with
        | nil => exact absurd rfl hdl
        | cons a as => simp)]
      intro hcontra
      simp only [List.append_eq_nil] at hcontra
      exact absurd hcontra.1.1.1 (by decide)
  · have hw : weekday_number (("Someday").toList) = none := by decide
    have hdate : date_html iso (weekday_number (("Someday").toList)) = [] := by
      rw [hw]
      cases iso with
      | none => rfl
      | some m => rfl
    rw [day_html, if_neg (by decide), hdate]
    decide

end Mealplan
